import Mathlib

/-!
Verification development for the GP search engine of the `gama` repository.

The genome data model (flattened pre-order typed trees, §3 of the spec),
the mutation operators of `src/gama/ea/mutation.py`, the compiler of
`src/gama/ea/automl_gp.py`, the observer of `src/gama/utilities/observer.py`
and the loop-entry validation of `src/gama/ea/async_ea.py` are shallowly
embedded below.  Python exceptions are modelled with `Option`/`Except`
(`none`/`.error` = a raised exception), `np.random.choice` over a non-empty
list is modelled by an arbitrary index parameter reduced modulo the list
length (choosing from an empty list raises, hence `none`), and in-place
mutation of the genome object is made explicit: each mutation operator
returns the pair (returned genome, node sequence of the passed-in genome
object after the call).
-/

/-! ## Definitions: the shallow embedding -/

/-- Types of the GAMA primitive set: the dataset type `Data`, the root type
`Predictions`, and one distinct nominal type per hyperparameter (`Hyper k`). -/
inductive GType : Type where
  | Data : GType
  | Predictions : GType
  | Hyper : Nat → GType
deriving DecidableEq, Repr

/-- `true` exactly on hyperparameter nominal types. -/
def GType.isHyper : GType → Bool
  | .Hyper _ => true
  | _ => false

/-- A `deap.gp.Primitive`: an operator with declared argument types and a
return type. -/
structure Primitive where
  name : String
  args : List GType
  ret : GType
deriving DecidableEq, Repr

/-- A `deap.gp.Terminal`: its display name, its underlying value (rendered as
a string; only equality with the members of `pset.arguments` is ever used)
and its nominal type. -/
structure Terminal where
  name : String
  value : String
  ret : GType
deriving DecidableEq, Repr

/-- A node of the flattened pre-order genome sequence. -/
inductive GNode : Type where
  | prim : Primitive → GNode
  | term : Terminal → GNode
deriving DecidableEq, Repr

/-- `el.ret` (both deap node kinds carry a return type). -/
def GNode.ret : GNode → GType
  | .prim p => p.ret
  | .term t => t.ret

/-- `issubclass(type(el), gp.Primitive)`. -/
def GNode.isPrim : GNode → Bool
  | .prim _ => true
  | .term _ => false

/-- `issubclass(type(el), gp.Terminal)`. -/
def GNode.isTerm : GNode → Bool
  | .prim _ => false
  | .term _ => true

/-- `el.name` (both deap node kinds carry a name). -/
def GNode.name : GNode → String
  | .prim p => p.name
  | .term t => t.name

/-- The parts of a `gp.PrimitiveSetTyped` used by the embedded code:
`pset.primitives` and `pset.terminals` (dictionaries keyed by type),
`pset.arguments` (the renamed input arguments, `["data"]` in GAMA) and
`pset.context` (name-to-value bindings; total here because GAMA registers a
context entry for every primitive and terminal it creates). -/
structure PrimitiveSetTyped where
  primitives : GType → List Primitive
  terminals : GType → List Terminal
  arguments : List String
  context : String → String

/-- One step of the front-to-back type-consistency check of §3: the head
pending type must be matched exactly by the node's return type; a primitive
then pushes its own argument types onto the front of the pending list. -/
def tcStep (ts : List GType) (n : GNode) : Option (List GType) :=
  match ts with
  | [] => none
  | t :: ts1 =>
    if n.ret = t then
      match n with
      | .term _ => some ts1
      | .prim p => some (p.args ++ ts1)
    else none

/-- Run the type-consistency check over a node sequence, returning the
pending argument types left after consuming it. -/
def tcRun : List GType → List GNode → Option (List GType)
  | ts, [] => some ts
  | ts, n :: ns =>
    match tcStep ts n with
    | none => none
    | some ts1 => tcRun ts1 ns

/-- §3 invariant: the sequence is exactly a pre-order tree whose root return
type is `Predictions`; read front-to-back, each primitive's arguments are
satisfied, in order, by following terminals/subtrees whose return types match
exactly. -/
def TypeConsistent (ind : List GNode) : Prop :=
  tcRun [GType.Predictions] ind = some []

instance (ind : List GNode) : Decidable (TypeConsistent ind) := by
  unfold TypeConsistent; infer_instance

/-- The scanning loop of `find_unmatched_terminal` (mutation.py lines 10-25):
a node matching the head of `unmatched_args` pops it, a primitive pushes its
own argument types onto the front, and the first terminal not matching the
head is returned (Python returns `False`, here `none`, when no such terminal
exists). -/
def futGo : List GType → List GNode → Nat → Option Nat
  | _, [], _ => none
  | us, el :: rest, i =>
    match us, el with
    | u :: us1, .term t =>
      if t.ret = u then futGo us1 rest (i + 1) else some i
    | u :: us1, .prim p =>
      if p.ret = u then futGo (p.args ++ us1) rest (i + 1)
      else futGo (p.args ++ u :: us1) rest (i + 1)
    | [], .term _ => some i
    | [], .prim p => futGo p.args rest (i + 1)

/-- `find_unmatched_terminal(individual)` of mutation.py: the scan starts
with an empty `unmatched_args` list. -/
def find_unmatched_terminal (individual : List GNode) : Option Nat :=
  futGo [] individual 0

/-- `np.random.choice(l)`: an arbitrary element of `l`, selected by the
choice parameter `c` (raises on an empty list, hence `none`). -/
def pick {α : Type _} (l : List α) (c : Nat) : Option α :=
  l.get? (c % l.length)

/-- Eligible positions of `mut_replace_terminal`: indices of terminals whose
type has at least two registered terminal values. -/
def eligibleTermIdxs (pset : PrimitiveSetTyped) (ind : List GNode) : List Nat :=
  (ind.enum.filter (fun ie =>
    ie.2.isTerm && decide (1 < (pset.terminals ie.2.ret).length))).map Prod.fst

/-- `mut_replace_terminal(ind, pset)` (mutation.py lines 28-40).  The result
pair is (returned genome, state of the passed-in genome object after the
call); the Python code assigns `ind[to_change] = ...` in place and returns
the same object, so the two components coincide. -/
def mut_replace_terminal (pset : PrimitiveSetTyped) (ind : List GNode) (cPos cAlt : Nat) :
    Option (List GNode × List GNode) :=
  match pick (eligibleTermIdxs pset ind) cPos with
  | none => none
  | some to_change =>
    match ind.get? to_change with
    | some (.term old) =>
      match pick ((pset.terminals old.ret).filter (fun t => t ≠ old)) cAlt with
      | none => none
      | some newt =>
        let mutated := ind.set to_change (.term newt)
        some (mutated, mutated)
    | _ => none

/-- Eligible positions of `mut_replace_primitive`: indices of primitives
whose return type has at least two registered primitives. -/
def eligiblePrimIdxs (pset : PrimitiveSetTyped) (ind : List GNode) : List Nat :=
  (ind.enum.filter (fun ie =>
    ie.2.isPrim && decide (1 < (pset.primitives ie.2.ret).length))).map Prod.fst

/-- `[np.random.choice(pset.terminals[ret_type]) for ret_type in tys]`:
the fresh terminals generated for the new primitive's non-data arguments
(`cT k` selects the terminal for the k-th argument). -/
def pickTerminals (pset : PrimitiveSetTyped) (cT : Nat → Nat) : List GType → Nat → Option (List GNode)
  | [], _ => some []
  | ty :: tys, k =>
    match pick (pset.terminals ty) (cT k) with
    | none => none
    | some t =>
      match pickTerminals pset cT tys (k + 1) with
      | none => none
      | some rest => some (GNode.term t :: rest)

/-- `mut_replace_primitive(ind, pset)` (mutation.py lines 43-94).  All raised
exceptions (no eligible primitive, empty `np.random.choice`, the internal
consistency `Exception`, and the attribute access `ind[terminal_index].value`
on a non-terminal) are `none`.  `number_of_removed_terminals` uses truncated
subtraction; in Python `len(args) - 1` can only differ when a primitive has
no arguments, which never holds for the genomes considered in the theorems
below.  The Python code builds `new_expr` out of slices of `ind` and never
mutates `ind` itself, so the second component of the result is `ind`. -/
def mut_replace_primitive (pset : PrimitiveSetTyped) (ind : List GNode)
    (cPos cAlt : Nat) (cT : Nat → Nat) : Option (List GNode × List GNode) :=
  match pick (eligiblePrimIdxs pset ind) cPos with
  | none => none
  | some to_change =>
    match ind.get? to_change with
    | some (.prim old) =>
      let number_of_removed_terminals := old.args.length - 1
      match pick ((pset.primitives old.ret).filter (fun p => p.name ≠ old.name)) cAlt with
      | none => none
      | some new_primitive =>
        match pickTerminals pset cT new_primitive.args.tail 0 with
        | none => none
        | some new_terminals =>
          match find_unmatched_terminal (ind.drop (to_change + 1)) with
          | none =>
            if number_of_removed_terminals = 0 then
              some (((ind ++ new_terminals).set to_change (.prim new_primitive)), ind)
            else none
          | some ti0 =>
            let tiBase := ti0 + (to_change + 1)
            match ind.get? tiBase with
            | some (.term t) =>
              let terminal_index :=
                if t.value ∈ pset.arguments then tiBase + 1 else tiBase
              some (((ind.take terminal_index ++ new_terminals
                       ++ ind.drop (terminal_index + number_of_removed_terminals)).set
                       to_change (.prim new_primitive)), ind)
            | _ => none
    | _ => none

/-- The candidate operators of `random_valid_mutation`. -/
inductive MutOp : Type where
  | replacePrimitive : MutOp
  | insertOp : MutOp
  | shrinkOp : MutOp
  | replaceTerminal : MutOp
deriving DecidableEq, Repr

/-- `available_mutations` as assembled in `random_valid_mutation`
(mutation.py lines 97-129): replace-primitive and `gp.mutInsert` always,
`gp.mutShrink` only with more than one primitive, replace-terminal only with
more than one terminal. -/
def available_mutations (ind : List GNode) : List MutOp :=
  [MutOp.replacePrimitive, MutOp.insertOp]
    ++ (if 1 < (ind.filter (fun el => el.isPrim)).length then [MutOp.shrinkOp] else [])
    ++ (if 1 < (ind.filter (fun el => el.isTerm)).length then [MutOp.replaceTerminal] else [])

/-- `random_valid_mutation(ind, pset)`.  `gp.mutInsert` and `gp.mutShrink`
live in the external deap library, so they enter as opaque parameters
(returning, like the embedded operators, the pair of returned genome and
post-call state of the input object, or `none` for a raised exception). -/
def random_valid_mutation
    (mutInsertE mutShrinkE : List GNode → Option (List GNode × List GNode))
    (pset : PrimitiveSetTyped) (ind : List GNode)
    (cOp cPos cAlt : Nat) (cT : Nat → Nat) : Option (List GNode × List GNode) :=
  match pick (available_mutations ind) cOp with
  | some MutOp.replacePrimitive => mut_replace_primitive pset ind cPos cAlt cT
  | some MutOp.insertOp => mutInsertE ind
  | some MutOp.shrinkOp => mutShrinkE ind
  | some MutOp.replaceTerminal => mut_replace_terminal pset ind cPos cAlt
  | none => none

/-- The shape of every primitive registered by `pset_from_config`:
`pset.addPrimitive(key, [Data, *hyperparameter_types], Data-or-Predictions)`. -/
def goodPrimB (p : Primitive) : Bool :=
  (p.ret = GType.Data || p.ret = GType.Predictions) &&
    (match p.args with
     | GType.Data :: hs => hs.all (fun h => h.isHyper)
     | _ => false)

/-- The value/type coherence of every terminal registered by
`pset_from_config` and `renameArguments`: a data terminal's value is an input
argument name, a hyperparameter terminal's value is not. -/
def goodTermB (argvals : List String) (t : Terminal) : Bool :=
  (if t.ret = GType.Data then decide (t.value ∈ argvals) else true) &&
    (if t.ret.isHyper then decide (t.value ∉ argvals) else true)

/-- GAMA-shape of a single genome node. -/
def goodNodeB (argvals : List String) : GNode → Bool
  | .prim p => goodPrimB p
  | .term t => goodTermB argvals t

/-- All nodes of the genome come from a `pset_from_config`-shaped primitive
set. -/
def GoodNodes (argvals : List String) (ind : List GNode) : Prop :=
  ∀ n ∈ ind, goodNodeB argvals n = true

instance (argvals : List String) (ind : List GNode) : Decidable (GoodNodes argvals ind) := by
  unfold GoodNodes; infer_instance

/-- The pending-type states reachable while checking a GAMA-shaped genome:
everything below the head is a hyperparameter type. -/
def tailHyper (ts : List GType) : Prop :=
  ∀ h ∈ ts.tail, h.isHyper = true

/-- A classifier primitive with one hyperparameter. -/
def clfA : Primitive := ⟨"clfA", [GType.Data, GType.Hyper 0], GType.Predictions⟩

/-- An alternative classifier sharing the hyperparameter type of `clfA`. -/
def clfB : Primitive := ⟨"clfB", [GType.Data, GType.Hyper 0], GType.Predictions⟩

/-- A transformer primitive with one hyperparameter. -/
def tfC : Primitive := ⟨"tfC", [GType.Data, GType.Hyper 1], GType.Data⟩

/-- An alternative transformer with no hyperparameters. -/
def tfD : Primitive := ⟨"tfD", [GType.Data], GType.Data⟩

/-- The input-data terminal registered by `renameArguments(ARG0="data")`. -/
def dataT : Terminal := ⟨"data", "data", GType.Data⟩

/-- Hyperparameter terminals. -/
def h0a : Terminal := ⟨"clfA.p=1", "1", GType.Hyper 0⟩

def h0b : Terminal := ⟨"clfA.p=2", "2", GType.Hyper 0⟩

def h1a : Terminal := ⟨"tfC.q=1", "1", GType.Hyper 1⟩

def h1b : Terminal := ⟨"tfC.q=2", "2", GType.Hyper 1⟩

/-- A small `pset_from_config`-shaped primitive set. -/
def demoPset : PrimitiveSetTyped where
  primitives := fun ty =>
    match ty with
    | GType.Predictions => [clfA, clfB]
    | GType.Data => [tfC, tfD]
    | GType.Hyper _ => []
  terminals := fun ty =>
    match ty with
    | GType.Data => [dataT]
    | GType.Predictions => []
    | GType.Hyper 0 => [h0a, h0b]
    | GType.Hyper 1 => [h1a, h1b]
    | GType.Hyper _ => []
  arguments := ["data"]
  context := fun _ => ""

/-- The genome `clfA(tfC(data, q=1), p=1)` in flattened pre-order. -/
def demoGenome : List GNode :=
  [GNode.prim clfA, GNode.prim tfC, GNode.term dataT, GNode.term h1a, GNode.term h0a]

/-- Modelled from the spec (C3's wording): the same scanning loop as
`find_unmatched_terminal`, but with the pending-argument-type queue seeded
with the replaced primitive's declared argument types, scanning forward from
the position immediately after the replaced primitive. -/
def find_unmatched_terminal_seeded (declared_args : List GType)
    (individual : List GNode) : Option Nat :=
  futGo declared_args individual 0

/-- Python `s.rfind(c, 0, stop2)` over a normalized stop index: the largest
index `i < stop2` with `cs[i] = c`, else `-1`. -/
def pyRfindAux (cs : List Char) (c : Char) (stop2 : Nat) : Int :=
  (List.range stop2).foldl
    (fun acc i => if cs.get? i = some c then (i : Int) else acc) (-1)

/-- Python `s.rfind(c, 0, stop)` with Python's negative-index normalization
of `stop`. -/
def pyRfind (cs : List Char) (c : Char) (stop : Int) : Int :=
  let n : Int := cs.length
  let stop2 : Int := if stop < 0 then n + stop else if n < stop then n else stop
  pyRfindAux cs c stop2.toNat

/-- Python slice `cs[a:b]` (for the index forms reached by
`extract_arg_name`). -/
def pySlice (cs : List Char) (a b : Int) : List Char :=
  let n : Int := cs.length
  let a2 : Int := if a < 0 then max 0 (n + a) else min a n
  let b2 : Int := if b < 0 then max 0 (n + b) else min b n
  if b2 ≤ a2 then [] else (cs.drop a2.toNat).take (b2 - a2).toNat

/-- `extract_arg_name(terminal_name)` of automl_gp.py: the text between the
last `.` before the last `=` and that `=`. -/
def extract_arg_name (terminal_name : String) : String :=
  let cs := terminal_name.data
  let equal_idx := pyRfind cs '=' (cs.length : Int)
  let start_parameter_name := pyRfind cs '.' equal_idx + 1
  String.mk (pySlice cs start_parameter_name equal_idx)

/-- An instantiated pipeline component: the resolved class (via
`pset.context`) and the keyword arguments bound from the terminals. -/
structure Component where
  cls : String
  kwargs : List (String × String)
deriving DecidableEq, Repr

/-- One Python-dict insertion: overwrite the value if the key is present,
append otherwise. -/
def upsert (l : List (String × String)) (k v : String) : List (String × String) :=
  if l.any (fun kv => kv.1 = k) then
    l.map (fun kv => if kv.1 = k then (k, v) else kv)
  else l ++ [(k, v)]

/-- `expression_to_component(primitive, terminals, pset, parameter_checks)`
(automl_gp.py lines 140-171).  A raised `ValueError` (type mismatch or
parameter-check rejection) is `none`; `parameter_checks` combines the Python
`None`/dict argument into one lookup function. -/
def expression_to_component (primitive : Primitive) (terminals : List GNode)
    (pset : PrimitiveSetTyped)
    (parameter_checks : String → Option (List (String × String) → Bool)) :
    Option (Component × Nat) :=
  let required := (primitive.args.filter (fun ty => ty ≠ GType.Data)).reverse
  let required_provided := List.zip required terminals
  if required_provided.all (fun rp => rp.1 = rp.2.ret) then
    let kwargs := required_provided.foldl
      (fun acc rp => upsert acc (extract_arg_name rp.2.name) (pset.context rp.2.name)) []
    if (parameter_checks primitive.name).elim true (fun chk => chk kwargs) then
      some (⟨pset.context primitive.name, kwargs⟩, kwargs.length)
    else none
  else none

/-- The `while len(ind) > 0` loop of `compile_individual` (automl_gp.py lines
106-137).  `.error ()` is the uncaught `raise Exception` on a terminal with a
non-empty remainder; `.ok none` is the sentinel `return None`. -/
def compileLoop (pset : PrimitiveSetTyped)
    (parameter_checks : String → Option (List (String × String) → Bool)) :
    List GNode → List (String × Component) → (String → Nat) →
    Except Unit (Option (List (String × Component)))
  | [], components, _ => .ok (some components)
  | GNode.term _ :: remainder, components, _ =>
    if remainder.length > 0 then .error () else .ok (some components)
  | GNode.prim p :: remainder, components, name_counter =>
    match expression_to_component p remainder.reverse pset parameter_checks with
    | none => .ok none
    | some (component, n_kwargs) =>
      let name := p.name ++ toString (name_counter p.name)
      let counter2 := fun s => if s = p.name then name_counter s + 1 else name_counter s
      let components2 := components ++ [(name, component)]
      let ind2 := if n_kwargs = 0 then remainder
                  else remainder.take (remainder.length - n_kwargs)
      compileLoop pset parameter_checks ind2 components2 counter2
termination_by ind _ _ => ind.length
decreasing_by
  simp only [List.length_cons]
  split <;> simp [List.length_take] <;> omega

/-- `compile_individual(expr, pset, parameter_checks, preprocessing_steps)`:
run the loop, then append the reversed preprocessing steps (named by their
class) and reverse the component list into the final pipeline. -/
def compile_individual (expr : List GNode) (pset : PrimitiveSetTyped)
    (parameter_checks : String → Option (List (String × String) → Bool))
    (preprocessing_steps : List Component) :
    Except Unit (Option (List (String × Component))) :=
  match compileLoop pset parameter_checks expr [] (fun _ => 0) with
  | .error _ => .error ()
  | .ok none => .ok none
  | .ok (some components) =>
    .ok (some ((components ++ preprocessing_steps.reverse.map
      (fun st => (st.cls, st))).reverse))

/-- `individual_length(individual)` (automl_gp.py lines 184-186): the number
of primitives. -/
def individual_length (individual : List GNode) : Nat :=
  (individual.filter (fun el => el.isPrim)).length

/-- The canonical hyperparameter name of a hyperparameter type (what
`extract_arg_name` recovers from the display name of any of its terminals in
a `pset_from_config`-built primitive set). -/
def hyperName (hname : Nat → String) : GType → String
  | .Hyper k => hname k
  | _ => ""

/-- Coherence of display names, as `pset_from_config` establishes it: every
hyperparameter terminal's name extracts to the name of its type, and the
hyperparameter names within one primitive's argument list are distinct
(they are distinct keys of one operator's hyperparameter dictionary). -/
def argNamesOKB (hname : Nat → String) : GNode → Bool
  | .term t =>
    match t.ret with
    | .Hyper k => decide (extract_arg_name t.name = hname k)
    | _ => true
  | .prim p => decide ((p.args.tail.map (hyperName hname)).Nodup)

/-- All nodes of a genome are name-coherent. -/
def ArgNamesOK (hname : Nat → String) (ind : List GNode) : Prop :=
  ∀ n ∈ ind, argNamesOKB hname n = true

instance (hname : Nat → String) (ind : List GNode) : Decidable (ArgNamesOK hname ind) := by
  unfold ArgNamesOK; infer_instance

/-- The hyperparameter names of the demo primitive set. -/
def demoHName : Nat → String
  | 0 => "p"
  | 1 => "q"
  | _ => ""

/-- An evaluated individual as the elimination policies see it: DEAP's
weighted fitness values (sign-normalized so larger is better; floats in
Python, integers here since only comparisons occur) and an identity tag. -/
structure EvalIndiv where
  wvalues : List Int
  tag : Nat
deriving DecidableEq, Repr

/-- Python's `sorted(pop, key=lambda x: x.fitness.wvalues[0])`: a stable
ascending sort by the first weighted objective. -/
def sortByWvalue0 (pop : List EvalIndiv) : List EvalIndiv :=
  List.insertionSort (fun x y => x.wvalues.headI ≤ y.wvalues.headI) pop

/-- `eliminate_worst(pop, n)` (automl_gp.py lines 193-194):
`list(sorted(pop, key=lambda x: x.fitness.wvalues[0]))[-n:]` (Python's
`[-n:]` is the whole list when `n = 0`). -/
def eliminate_worst (pop : List EvalIndiv) (n : Nat) : List EvalIndiv :=
  let s := sortByWvalue0 pop
  if n = 0 then s else s.drop (s.length - n)

/-- `eliminate_NSGA(pop, n) = tools.selNSGA2(pop, k=len(pop))[-n:]`
(automl_gp.py lines 189-190); `selNSGA2` is external deap code and enters as
a parameter. -/
def eliminate_NSGA (selNSGA2 : List EvalIndiv → Nat → List EvalIndiv)
    (pop : List EvalIndiv) (n : Nat) : List EvalIndiv :=
  let s := selNSGA2 pop pop.length
  if n = 0 then s else s.drop (s.length - n)

/-- An individual as the observer sees it: raw objective values, the DEAP
fitness weights, the elapsed evaluation time, and the canonical genome
string (floats modelled as integers; only comparisons and tuple structure
occur). -/
structure OIndiv where
  values : List Int
  weights : List Int
  fitnessTime : Int
  genomeStr : String
deriving DecidableEq, Repr

/-- DEAP's weighted fitness values: values multiplied componentwise by the
weights declared on the Fitness class. -/
def OIndiv.wvalues (i : OIndiv) : List Int :=
  List.zipWith (fun w v => w * v) i.weights i.values

/-- The sort key order of `Observer.best_n`:
`key=lambda x: (-x.fitness.values[0], str(x))`, compared lexicographically
ascending. -/
def bestNKeyLE (x y : OIndiv) : Prop :=
  -x.values.headI < -y.values.headI ∨
    (-x.values.headI = -y.values.headI ∧ x.genomeStr ≤ y.genomeStr)

instance : DecidableRel bestNKeyLE := fun x y => by
  unfold bestNKeyLE; infer_instance

instance : IsTotal OIndiv bestNKeyLE := by
  constructor
  intro a b
  unfold bestNKeyLE
  rcases lt_trichotomy (-a.values.headI) (-b.values.headI) with h | h | h
  · exact Or.inl (Or.inl h)
  · rcases le_total a.genomeStr b.genomeStr with h2 | h2
    · exact Or.inl (Or.inr ⟨h, h2⟩)
    · exact Or.inr (Or.inr ⟨h.symm, h2⟩)
  · exact Or.inr (Or.inl h)

instance : IsTrans OIndiv bestNKeyLE := by
  constructor
  intro a b c hab hbc
  unfold bestNKeyLE at hab hbc ⊢
  rcases hab with h1 | ⟨h1, h1s⟩ <;> rcases hbc with h2 | ⟨h2, h2s⟩
  · exact Or.inl (lt_trans h1 h2)
  · exact Or.inl (h2 ▸ h1)
  · exact Or.inl (h1 ▸ h2)
  · exact Or.inr ⟨h1.trans h2, le_trans h1s h2s⟩

/-- `Observer.best_n(n)` (observer.py lines 50-58): sort the full evaluation
history by the key and take the first `n`. -/
def best_n (individuals : List OIndiv) (n : Nat) : List OIndiv :=
  (List.insertionSort bestNKeyLE individuals).take n

/-- A concrete evaluation history with a tie on the primary objective. -/
def demoHistory : List OIndiv :=
  [⟨[3], [1], 10, "a"⟩, ⟨[5], [1], 11, "b"⟩, ⟨[3], [1], 12, "c"⟩]

/-- The fitness-value assignment of `get_next_evaluation_result`
(async_ea.py lines 63-80); `none` means the fitness values are left unset
(no branch matched, or `objectives[1]` is out of range).  Scores and times
are modelled as integers (only tuple structure matters). -/
def assignFitness (objectives : List String) (score evaluation_time length2 : Int) :
    Option (List Int) :=
  if objectives.length = 1 then some [score]
  else
    match objectives.get? 1 with
    | some o =>
      if o = "time" then some [score, evaluation_time]
      else if o = "size" then some [score, length2]
      else none
    | none => none

/-- The outcome of invoking the user callback inside `_safe_outside_call`. -/
inductive CallbackOutcome : Type where
  | ok : CallbackOutcome
  | timeoutExc : CallbackOutcome
  | otherExc : CallbackOutcome
deriving DecidableEq, Repr

/-- The observable control-flow result of `_safe_outside_call`. -/
inductive SafeCallResult : Type where
  | returned : SafeCallResult
  | raisedTimeout : SafeCallResult
deriving DecidableEq, Repr

/-- `_safe_outside_call(fn, timeout)` (async_ea.py lines 14-28): a
`stopit.utils.TimeoutException` raised by `fn` is re-raised immediately; any
other exception is logged and swallowed; then, if `timeout()` reports the
overall budget exhausted, a `TimeoutException` is raised; otherwise the call
returns normally.  `timeoutNow` is the value `timeout()` yields at the check. -/
def safe_outside_call (fnOutcome : CallbackOutcome) (timeoutNow : Bool) : SafeCallResult :=
  match fnOutcome with
  | .timeoutExc => .raisedTimeout
  | .ok => if timeoutNow then .raisedTimeout else .returned
  | .otherExc => if timeoutNow then .raisedTimeout else .returned

/-- The validation prologue of `async_ea` (async_ea.py lines 31-47),
executed before any work starts: the result names the parameter of the
raised `ValueError`, `none` meaning no validation error.  Numeric arguments
are rationals (Python ints/floats; only comparisons occur; `3e6` is
3000000). -/
def async_ea_validate (max_time_seconds : Rat) (max_n_evaluations n_jobs : Int) :
    Option String :=
  if max_time_seconds ≤ 0 ∨ 3000000 < max_time_seconds then some ("max_time_seconds")
  else if max_n_evaluations ≤ 0 then some ("n_evaluations")
  else if n_jobs ≤ 0 then some ("n_jobs")
  else none

/-- The observer's mutable state (observer.py): the two Pareto fronts (the
front data structure is an external collaborator; only its `update`
operation is used, passed in as a parameter below), the evaluation history,
the counter since the last current-front change, and the append-only audit
log (the `_evaluations.csv` lines). -/
structure ObserverState where
  overall_front : List OIndiv
  current_front : List OIndiv
  individuals : List OIndiv
  individuals_since_last_pareto_update : Nat
  evaluations : List String
deriving DecidableEq, Repr

/-- `Observer._record_individual(ind)` (observer.py lines 21-27): the audit
line reads `fitness.time`, `wvalues[0]`, `wvalues[1]` and the canonical
genome string; an out-of-range index raises an `IndexError` (= `none`). -/
def record_individual (ind : OIndiv) : Option String :=
  match ind.wvalues.get? 0, ind.wvalues.get? 1 with
  | some w0, some w1 =>
    some (String.intercalate (";")
      [toString ind.fitnessTime, toString w0, toString w1, ind.genomeStr])
  | _, _ => none

/-- `Observer.update(ind)` (observer.py lines 29-44): append the individual
to the history, write the audit record (an exception there propagates,
`.error` carrying the state mutated so far), then update the current front
(resetting or bumping the staleness counter) and the overall front through
the external ParetoFront update operation `frontUpdate`. -/
def Observer.update (frontUpdate : List OIndiv → OIndiv → List OIndiv × Bool)
    (st : ObserverState) (ind : OIndiv) : Except ObserverState ObserverState :=
  let st1 := { st with individuals := st.individuals ++ [ind] }
  match record_individual ind with
  | none => .error st1
  | some line =>
    let st2 := { st1 with evaluations := st1.evaluations ++ [line] }
    let fu1 := frontUpdate st2.current_front ind
    let st3 := if fu1.2 then
        { st2 with current_front := fu1.1, individuals_since_last_pareto_update := 0 }
      else
        { st2 with
          current_front := fu1.1
          individuals_since_last_pareto_update :=
            st2.individuals_since_last_pareto_update + 1 }
    let fu2 := frontUpdate st3.overall_front ind
    .ok { st3 with overall_front := fu2.1 }

/-! ## Theorems -/

theorem tcRun_append (A B : List GNode) : ∀ ts, tcRun ts (A ++ B) =
    match tcRun ts A with
    | none => none
    | some k => tcRun k B := by
  induction A with
  | nil => intro ts; simp [tcRun]
  | cons n ns ih =>
    intro ts
    simp only [List.cons_append, tcRun]
    cases tcStep ts n with
    | none => rfl
    | some ts1 => exact ih ts1

theorem tcRun_nil_left {xs : List GNode} {k : List GType}
    (h : tcRun [] xs = some k) : xs = [] ∧ k = [] := by
  cases xs with
  | nil => simp [tcRun] at h; exact ⟨rfl, h⟩
  | cons n ns => simp [tcRun, tcStep] at h

theorem tcRun_extend (xs : List GNode) : ∀ ts1 ts2 r, tcRun ts1 xs = some r →
    tcRun (ts1 ++ ts2) xs = some (r ++ ts2) := by
  induction xs with
  | nil =>
    intro ts1 ts2 r h
    simp [tcRun] at h ⊢
    rw [h]
  | cons n ns ih =>
    intro ts1 ts2 r h
    cases ts1 with
    | nil => simp [tcRun, tcStep] at h
    | cons t ts1a =>
      by_cases hr : n.ret = t
      · cases n with
        | term tm =>
          simp only [tcRun, tcStep, List.cons_append, if_pos hr] at h ⊢
          exact ih ts1a ts2 r h
        | prim p =>
          simp only [tcRun, tcStep, List.cons_append, if_pos hr] at h ⊢
          rw [← List.append_assoc]
          exact ih (p.args ++ ts1a) ts2 r h
      · cases n <;> simp [tcRun, tcStep, if_neg hr] at h

theorem tcRun_split (xs : List GNode) : ∀ ts1 ts2, tcRun (ts1 ++ ts2) xs = some [] →
    ∃ A B, xs = A ++ B ∧ tcRun ts1 A = some [] ∧ tcRun ts2 B = some [] := by
  induction xs with
  | nil =>
    intro ts1 ts2 h
    simp [tcRun] at h
    exact ⟨[], [], by simp, by simp [tcRun, h.1], by simp [tcRun, h.2]⟩
  | cons n ns ih =>
    intro ts1 ts2 h
    cases ts1 with
    | nil => exact ⟨[], n :: ns, rfl, rfl, h⟩
    | cons t ts1a =>
      by_cases hr : n.ret = t
      · cases n with
        | term tm =>
          simp only [tcRun, tcStep, List.cons_append, if_pos hr] at h
          obtain ⟨A, B, hAB, hA, hB⟩ := ih ts1a ts2 h
          refine ⟨GNode.term tm :: A, B, by simp [hAB], ?_, hB⟩
          simp only [tcRun, tcStep, if_pos hr]
          exact hA
        | prim p =>
          simp only [tcRun, tcStep, List.cons_append, if_pos hr] at h
          rw [← List.append_assoc] at h
          obtain ⟨A, B, hAB, hA, hB⟩ := ih (p.args ++ ts1a) ts2 h
          refine ⟨GNode.prim p :: A, B, by simp [hAB], ?_, hB⟩
          simp only [tcRun, tcStep, if_pos hr]
          exact hA
      · cases n <;> simp [tcRun, tcStep, if_neg hr] at h

theorem tcStep_tailHyper {av : List String} {ts ts1 : List GType} {n : GNode}
    (hg : goodNodeB av n = true) (ht : tailHyper ts) (h : tcStep ts n = some ts1) :
    tailHyper ts1 := by
  cases ts with
  | nil => simp [tcStep] at h
  | cons t rest =>
    by_cases hr : n.ret = t
    · cases n with
      | term tm =>
        simp only [tcStep, if_pos hr] at h
        cases h
        intro x hx
        exact ht x (List.mem_of_mem_tail hx)
      | prim p =>
        simp only [tcStep, if_pos hr] at h
        cases h
        simp only [goodNodeB, goodPrimB, Bool.and_eq_true] at hg
        obtain ⟨-, hargs⟩ := hg
        cases hA : p.args with
        | nil => rw [hA] at hargs; simp at hargs
        | cons a hs =>
          rw [hA] at hargs
          cases a with
          | Data =>
            simp only [List.all_eq_true] at hargs
            intro x hx
            simp only [List.cons_append, List.tail_cons] at hx
            rcases List.mem_append.mp hx with hx1 | hx2
            · exact hargs x hx1
            · exact ht x hx2
          | Predictions => simp at hargs
          | Hyper k => simp at hargs
    · cases n <;> simp [tcStep, if_neg hr] at h

theorem tcRun_tailHyper {av : List String} (A : List GNode) :
    ∀ ts k, GoodNodes av A → tailHyper ts → tcRun ts A = some k → tailHyper k := by
  induction A with
  | nil =>
    intro ts k _ ht h
    simp [tcRun] at h
    rwa [← h]
  | cons n ns ih =>
    intro ts k hg ht h
    simp only [tcRun] at h
    cases hs : tcStep ts n with
    | none => rw [hs] at h; simp at h
    | some ts1 =>
      rw [hs] at h
      have hgn : goodNodeB av n = true := hg n (List.mem_cons_self n ns)
      have hgns : GoodNodes av ns := fun m hm => hg m (List.mem_cons_of_mem n hm)
      exact ih ts1 k hgns (tcStep_tailHyper hgn ht hs) h

/-- A complete forest for a list of hyperparameter types consists of single
terminals whose return types are exactly those types, in order. -/
theorem tcRun_hyper_terms {av : List String} (hs : List GType) :
    ∀ xs, (∀ h ∈ hs, h.isHyper = true) → GoodNodes av xs → tcRun hs xs = some [] →
    ∃ tms : List Terminal, xs = tms.map GNode.term ∧ tms.map Terminal.ret = hs := by
  induction hs with
  | nil =>
    intro xs _ _ h
    obtain ⟨hxs, -⟩ := tcRun_nil_left h
    exact ⟨[], by simp [hxs], by simp⟩
  | cons h0 hs1 ih =>
    intro xs hh hg h
    cases xs with
    | nil => simp [tcRun] at h
    | cons n ns =>
      by_cases hr : n.ret = h0
      · cases n with
        | term tm =>
          simp only [tcRun, tcStep, if_pos hr] at h
          obtain ⟨tms, htms, hret⟩ := ih ns (fun x hx => hh x (List.mem_cons_of_mem h0 hx))
            (fun m hm => hg m (List.mem_cons_of_mem _ hm)) h
          refine ⟨tm :: tms, by simp [htms], by simp [hret]; exact hr⟩
        | prim p =>
          have hgn := hg (GNode.prim p) (List.mem_cons_self _ ns)
          simp only [goodNodeB, goodPrimB, Bool.and_eq_true] at hgn
          have hret : p.ret = GType.Data ∨ p.ret = GType.Predictions := by
            rcases hgn with ⟨hd, -⟩
            simpa using hd
          have hhyp : h0.isHyper = true := hh h0 (List.mem_cons_self _ _)
          rw [show (GNode.prim p).ret = p.ret from rfl] at hr
          rcases hret with hret | hret <;> rw [hret] at hr <;> rw [← hr] at hhyp <;>
            simp [GType.isHyper] at hhyp
      · cases n <;> simp [tcRun, tcStep, if_neg hr] at h

/-- While the scan of `find_unmatched_terminal` walks over a complete
well-typed forest whose types head its pending list, every node matches the
pending head, so the scan consumes the forest and continues behind it. -/
theorem futGo_consume (xs : List GNode) : ∀ ts R ys i, tcRun ts xs = some [] →
    futGo (ts ++ R) (xs ++ ys) i = futGo R ys (i + xs.length) := by
  induction xs with
  | nil =>
    intro ts R ys i h
    obtain ⟨-, hts⟩ : ([] : List GNode) = [] ∧ ts = [] := by
      simp [tcRun] at h; exact ⟨rfl, h⟩
    simp [hts]
  | cons n ns ih =>
    intro ts R ys i h
    cases ts with
    | nil => simp [tcRun, tcStep] at h
    | cons t ts1 =>
      by_cases hr : n.ret = t
      · cases n with
        | term tm =>
          simp only [tcRun, tcStep, if_pos hr] at h
          have hr2 : tm.ret = t := hr
          simp only [List.cons_append, futGo, hr2, if_true, List.append_eq]
          rw [ih ts1 R ys (i + 1) h]
          congr 1
          simp only [List.length_cons]
          omega
        | prim p =>
          simp only [tcRun, tcStep, if_pos hr] at h
          have hr2 : p.ret = t := hr
          simp only [List.cons_append, futGo, hr2, if_true, List.append_eq]
          rw [← List.append_assoc]
          rw [ih (p.args ++ ts1) R ys (i + 1) h]
          congr 1
          simp only [List.length_cons]
          omega
      · cases n <;> simp [tcRun, tcStep, if_neg hr] at h

theorem pick_mem {α : Type _} {l : List α} {c : Nat} {x : α} (h : pick l c = some x) :
    x ∈ l :=
  List.get?_mem h

theorem pick_isSome {α : Type _} (l : List α) (c : Nat) (hne : l ≠ []) :
    (pick l c).isSome := by
  have hlen : 0 < l.length := List.length_pos.mpr hne
  have : c % l.length < l.length := Nat.mod_lt c hlen
  unfold pick
  rw [List.get?_eq_get this]
  rfl

theorem eligibleTerm_spec {pset : PrimitiveSetTyped} {ind : List GNode} {tc : Nat}
    (h : tc ∈ eligibleTermIdxs pset ind) :
    ∃ t : Terminal, ind.get? tc = some (GNode.term t) ∧ 1 < (pset.terminals t.ret).length := by
  unfold eligibleTermIdxs at h
  simp only [List.mem_map, List.mem_filter] at h
  obtain ⟨⟨i, n⟩, ⟨hmem, hcond⟩, hfst⟩ := h
  simp only [Bool.and_eq_true, decide_eq_true_eq] at hcond
  obtain ⟨hterm, hlen⟩ := hcond
  cases n with
  | prim p => simp [GNode.isTerm] at hterm
  | term t =>
    refine ⟨t, ?_, hlen⟩
    have := List.mk_mem_enum_iff_getElem?.mp hmem
    subst hfst
    rw [List.get?_eq_getElem?]
    exact this

theorem eligiblePrim_spec {pset : PrimitiveSetTyped} {ind : List GNode} {tc : Nat}
    (h : tc ∈ eligiblePrimIdxs pset ind) :
    ∃ p : Primitive, ind.get? tc = some (GNode.prim p) ∧ 1 < (pset.primitives p.ret).length := by
  unfold eligiblePrimIdxs at h
  simp only [List.mem_map, List.mem_filter] at h
  obtain ⟨⟨i, n⟩, ⟨hmem, hcond⟩, hfst⟩ := h
  simp only [Bool.and_eq_true, decide_eq_true_eq] at hcond
  obtain ⟨hprim, hlen⟩ := hcond
  cases n with
  | term t => simp [GNode.isPrim] at hprim
  | prim p =>
    refine ⟨p, ?_, hlen⟩
    have := List.mk_mem_enum_iff_getElem?.mp hmem
    subst hfst
    rw [List.get?_eq_getElem?]
    exact this

theorem get?_decomp {α : Type _} {l : List α} {i : Nat} {x : α} (h : l.get? i = some x) :
    l = l.take i ++ x :: l.drop (i + 1) ∧ (l.take i).length = i := by
  have hlt : i < l.length := by
    rcases List.get?_eq_some.mp h with ⟨hl, -⟩
    exact hl
  constructor
  · conv_lhs => rw [← List.take_append_drop i l]
    congr 1
    rw [List.drop_eq_getElem_cons hlt]
    congr 1
    rw [List.get?_eq_getElem?] at h
    have := List.getElem?_eq_getElem hlt
    rw [this] at h
    exact Option.some_inj.mp h
  · simpa using Nat.le_of_lt hlt

theorem set_len_append {α : Type _} (A : List α) (x y : α) (B : List α) :
    (A ++ x :: B).set A.length y = A ++ y :: B := by
  induction A with
  | nil => rfl
  | cons a as ih => simp [List.set, ih]

theorem tcRun_replace_term (u v : Terminal) (huv : u.ret = v.ret) (A : List GNode) :
    ∀ B ts, tcRun ts (A ++ GNode.term u :: B) = tcRun ts (A ++ GNode.term v :: B) := by
  induction A with
  | nil =>
    intro B ts
    cases ts with
    | nil => simp [tcRun, tcStep]
    | cons t ts1 =>
      simp only [List.nil_append, tcRun, tcStep]
      rw [show (GNode.term u).ret = v.ret from huv]
      rfl
  | cons n ns ih =>
    intro B ts
    simp only [List.cons_append, tcRun]
    cases tcStep ts n with
    | none => rfl
    | some ts1 => exact ih B ts1

theorem mut_replace_terminal_tc (pset : PrimitiveSetTyped) (ind : List GNode)
    (hWFt : ∀ ty t, t ∈ pset.terminals ty → t.ret = ty)
    (hTC : TypeConsistent ind) (cPos cAlt : Nat) (out post : List GNode)
    (h : mut_replace_terminal pset ind cPos cAlt = some (out, post)) :
    TypeConsistent out := by
  unfold mut_replace_terminal at h
  cases hp : pick (eligibleTermIdxs pset ind) cPos with
  | none => rw [hp] at h; exact absurd h (by simp)
  | some tc =>
    rw [hp] at h
    dsimp only at h
    cases hn : ind.get? tc with
    | none => rw [hn] at h; exact absurd h (by simp)
    | some node =>
      rw [hn] at h
      cases node with
      | prim p => exact absurd h (by simp)
      | term old =>
        dsimp only at h
        cases ha : pick ((pset.terminals old.ret).filter (fun t => t ≠ old)) cAlt with
        | none => rw [ha] at h; exact absurd h (by simp)
        | some newt =>
          rw [ha] at h
          simp only [Option.some_inj, Prod.mk.injEq] at h
          obtain ⟨hout, -⟩ := h
          have hmem := pick_mem ha
          rw [List.mem_filter] at hmem
          have hret : newt.ret = old.ret := hWFt old.ret newt hmem.1
          obtain ⟨hdec, -⟩ := get?_decomp hn
          have hlt : tc < ind.length := by
            rcases List.get?_eq_some.mp hn with ⟨hl, -⟩
            exact hl
          unfold TypeConsistent at hTC ⊢
          rw [← hout, List.set_eq_take_cons_drop _ hlt]
          rw [← tcRun_replace_term old newt hret.symm]
          rw [← hdec]
          exact hTC

theorem take_mid {α : Type _} (A : List α) (x : α) (S Z : List α) :
    (A ++ x :: (S ++ Z)).take (A.length + 1 + S.length) = A ++ x :: S := by
  rw [show A ++ x :: (S ++ Z) = (A ++ x :: S) ++ Z by simp]
  rw [List.take_append_eq_append_take]
  have h1 : (A ++ x :: S).length = A.length + 1 + S.length := by
    simp
    omega
  rw [List.take_all_of_le (by rw [h1]), h1, Nat.sub_self, List.take_zero, List.append_nil]

theorem drop_mid {α : Type _} (A : List α) (x : α) (S T B : List α) :
    (A ++ x :: (S ++ (T ++ B))).drop (A.length + 1 + S.length + T.length) = B := by
  rw [show A ++ x :: (S ++ (T ++ B)) = ((A ++ x :: S) ++ T) ++ B by simp]
  rw [List.drop_append_eq_append_drop]
  have h1 : ((A ++ x :: S) ++ T).length = A.length + 1 + S.length + T.length := by
    simp
    omega
  rw [List.drop_eq_nil_of_le (by rw [h1]), h1, Nat.sub_self, List.drop_zero, List.nil_append]

theorem get?_mid {α : Type _} (A : List α) (x : α) (S Z : List α) :
    (A ++ x :: (S ++ Z)).get? (A.length + 1 + S.length) = Z.get? 0 := by
  rw [show A ++ x :: (S ++ Z) = (A ++ x :: S) ++ Z by simp]
  rw [List.get?_append_right (by simp; omega)]
  congr 1
  simp
  omega

/-- The shape of a complete `Data`-typed subtree: a single terminal of type
`Data`, or a primitive of return type `Data` followed by the forest of its
argument subtrees. -/
theorem data_subtree_cases {S : List GNode}
    (hS : tcRun [GType.Data] S = some []) :
    (∃ d : Terminal, S = [GNode.term d] ∧ d.ret = GType.Data) ∨
    (∃ q S2, S = GNode.prim q :: S2 ∧ q.ret = GType.Data ∧ tcRun q.args S2 = some []) := by
  cases S with
  | nil => simp [tcRun] at hS
  | cons n S2 =>
    by_cases hr : n.ret = GType.Data
    · cases n with
      | term d =>
        left
        simp only [tcRun, tcStep, if_pos hr] at hS
        obtain ⟨h2, -⟩ := tcRun_nil_left hS
        exact ⟨d, by rw [h2], hr⟩
      | prim q =>
        right
        simp only [tcRun, tcStep, if_pos hr] at hS
        rw [List.append_nil] at hS
        exact ⟨q, S2, rfl, hr, hS⟩
    · cases n <;> simp [tcRun, tcStep, if_neg hr] at hS

theorem fut_data_term (d : Terminal) (rest : List GNode) :
    find_unmatched_terminal (GNode.term d :: rest) = some 0 := rfl

theorem fut_prim_head (q : Primitive) (S2 ys : List GNode)
    (hq : tcRun q.args S2 = some []) :
    find_unmatched_terminal (GNode.prim q :: (S2 ++ ys)) = futGo [] ys (1 + S2.length) := by
  unfold find_unmatched_terminal
  show futGo q.args (S2 ++ ys) 1 = futGo [] ys (1 + S2.length)
  have := futGo_consume S2 q.args [] ys 1 hq
  rw [List.append_nil] at this
  exact this

theorem futGo_nil_term (c : Terminal) (rest : List GNode) (i : Nat) :
    futGo [] (GNode.term c :: rest) i = some i := rfl

/-- Composing the replaced genome back together: the prefix runs to the
pending state `newp.ret :: K`, the new primitive opens `Data :: hs2`, the
data subtree `S` consumes `Data`, the fresh terminals `L` consume `hs2`, and
the suffix `B` consumes `K`. -/
theorem tcRun_chain (A : List GNode) (newp : Primitive) (S L B : List GNode)
    (K hs2 : List GType)
    (hA : tcRun [GType.Predictions] A = some (newp.ret :: K))
    (hargs : newp.args = GType.Data :: hs2)
    (hS : tcRun [GType.Data] S = some [])
    (hL : tcRun (hs2 ++ K) L = some K)
    (hB : tcRun K B = some []) :
    TypeConsistent (A ++ GNode.prim newp :: (S ++ (L ++ B))) := by
  unfold TypeConsistent
  rw [tcRun_append, hA]
  show tcRun (newp.ret :: K) (GNode.prim newp :: (S ++ (L ++ B))) = some []
  have hstep : tcStep (newp.ret :: K) (GNode.prim newp) = some (newp.args ++ K) := by
    simp [tcStep, GNode.ret]
  simp only [tcRun, hstep]
  rw [hargs]
  have hS2 : tcRun (GType.Data :: (hs2 ++ K)) S = some (hs2 ++ K) := by
    have := tcRun_extend S [GType.Data] (hs2 ++ K) [] hS
    simpa using this
  rw [show (GType.Data :: hs2) ++ K = GType.Data :: (hs2 ++ K) from rfl]
  rw [tcRun_append, hS2]
  show tcRun (hs2 ++ K) (L ++ B) = some []
  rw [tcRun_append, hL]
  exact hB

theorem take_mid2 {α : Type _} (A : List α) (x : α) (S Z : List α) (n : Nat)
    (hn : n = A.length + 1 + S.length) :
    (A ++ x :: (S ++ Z)).take n = A ++ x :: S := by
  rw [hn]
  exact take_mid A x S Z

theorem drop_mid2 {α : Type _} (A : List α) (x : α) (S T B : List α) (n : Nat)
    (hn : n = A.length + 1 + S.length + T.length) :
    (A ++ x :: (S ++ (T ++ B))).drop n = B := by
  rw [hn]
  exact drop_mid A x S T B

theorem get?_mid2 {α : Type _} (A : List α) (x : α) (S Z : List α) (n : Nat)
    (hn : n = A.length + 1 + S.length) :
    (A ++ x :: (S ++ Z)).get? n = Z.get? 0 := by
  rw [hn]
  exact get?_mid A x S Z

theorem get?_after {α : Type _} (A : List α) (x : α) (Z : List α) (n : Nat)
    (hn : n = A.length + 1) :
    (A ++ x :: Z).get? n = Z.get? 0 := by
  subst hn
  rw [List.get?_append_right (by simp)]
  simp

theorem set_splice {α : Type _} (A : List α) (x y : α) (S L B : List α) (tc : Nat)
    (htc : tc = A.length) :
    ((A ++ x :: S) ++ L ++ B).set tc y = A ++ y :: (S ++ (L ++ B)) := by
  subst htc
  rw [show (A ++ x :: S) ++ L ++ B = A ++ x :: (S ++ (L ++ B)) by simp]
  exact set_len_append A x y (S ++ (L ++ B))

theorem goodPrimB_spec {p : Primitive} (h : goodPrimB p = true) :
    (p.ret = GType.Data ∨ p.ret = GType.Predictions) ∧
    ∃ hs, p.args = GType.Data :: hs ∧ ∀ x ∈ hs, x.isHyper = true := by
  unfold goodPrimB at h
  rw [Bool.and_eq_true] at h
  obtain ⟨h1, h2⟩ := h
  constructor
  · rw [Bool.or_eq_true] at h1
    rcases h1 with h | h
    · exact Or.inl (by simpa using h)
    · exact Or.inr (by simpa using h)
  · cases hA : p.args with
    | nil => rw [hA] at h2; simp at h2
    | cons a hs =>
      rw [hA] at h2
      cases a with
      | Data => exact ⟨hs, rfl, by simpa [List.all_eq_true] using h2⟩
      | Predictions => simp at h2
      | Hyper k => simp at h2

theorem goodTermB_data {av : List String} {t : Terminal}
    (h : goodTermB av t = true) (hret : t.ret = GType.Data) : t.value ∈ av := by
  unfold goodTermB at h
  rw [Bool.and_eq_true] at h
  have := h.1
  rw [if_pos hret] at this
  simpa using this

theorem goodTermB_hyper {av : List String} {t : Terminal}
    (h : goodTermB av t = true) (hret : t.ret.isHyper = true) : t.value ∉ av := by
  unfold goodTermB at h
  rw [Bool.and_eq_true] at h
  have := h.2
  rw [if_pos hret] at this
  simpa using this

theorem run_head_term (av : List String) {K : List GType} {b : GNode} {B2 : List GNode}
    (hK : ∀ x ∈ K, x.isHyper = true)
    (hBrun : tcRun K (b :: B2) = some [])
    (hGb : goodNodeB av b = true) :
    ∃ ct : Terminal, b = GNode.term ct ∧ ct.ret.isHyper = true := by
  cases K with
  | nil => simp [tcRun, tcStep] at hBrun
  | cons kh K2 =>
    by_cases hr : b.ret = kh
    · cases b with
      | prim p =>
        have hkh : kh.isHyper = true := hK kh (List.mem_cons_self _ _)
        obtain ⟨hret, -⟩ := goodPrimB_spec (by simpa [goodNodeB] using hGb)
        rw [show (GNode.prim p).ret = p.ret from rfl] at hr
        rcases hret with hret | hret <;> rw [hret] at hr <;> rw [← hr] at hkh <;>
          simp [GType.isHyper] at hkh
      | term t =>
        refine ⟨t, rfl, ?_⟩
        rw [show (GNode.term t).ret = t.ret from rfl] at hr
        rw [hr]
        exact hK kh (List.mem_cons_self _ _)
    · cases b <;> simp [tcRun, tcStep, if_neg hr] at hBrun

theorem pickTerminals_run (pset : PrimitiveSetTyped)
    (hWFt : ∀ ty t, t ∈ pset.terminals ty → t.ret = ty) (cT : Nat → Nat) :
    ∀ tys k L, pickTerminals pset cT tys k = some L → ∀ K, tcRun (tys ++ K) L = some K := by
  intro tys
  induction tys with
  | nil =>
    intro k L h K
    simp only [pickTerminals, Option.some_inj] at h
    rw [← h]
    simp [tcRun]
  | cons ty tys1 ih =>
    intro k L h K
    unfold pickTerminals at h
    cases hp : pick (pset.terminals ty) (cT k) with
    | none => rw [hp] at h; exact absurd h (by simp)
    | some t =>
      rw [hp] at h
      cases hrest : pickTerminals pset cT tys1 (k + 1) with
      | none => rw [hrest] at h; exact absurd h (by simp)
      | some rest =>
        rw [hrest] at h
        simp only [Option.some_inj] at h
        have hret : t.ret = ty := hWFt ty t (pick_mem hp)
        rw [← h]
        show tcRun ((ty :: tys1) ++ K) (GNode.term t :: rest) = some K
        have hstep : tcStep (ty :: (tys1 ++ K)) (GNode.term t) = some (tys1 ++ K) := by
          simp [tcStep, GNode.ret, hret]
        simp only [List.cons_append, tcRun, hstep]
        exact ih (k + 1) rest hrest K

theorem mut_replace_primitive_tc (pset : PrimitiveSetTyped) (ind : List GNode)
    (hWFp : ∀ ty p, p ∈ pset.primitives ty → p.ret = ty)
    (hWFpg : ∀ ty p, p ∈ pset.primitives ty → goodPrimB p = true)
    (hWFt : ∀ ty t, t ∈ pset.terminals ty → t.ret = ty)
    (hTC : TypeConsistent ind) (hG : GoodNodes pset.arguments ind)
    (cPos cAlt : Nat) (cT : Nat → Nat) (out post : List GNode)
    (h : mut_replace_primitive pset ind cPos cAlt cT = some (out, post)) :
    TypeConsistent out := by
  unfold mut_replace_primitive at h
  cases hp : pick (eligiblePrimIdxs pset ind) cPos with
  | none => rw [hp] at h; exact absurd h (by simp)
  | some tc =>
    rw [hp] at h
    dsimp only at h
    cases hn : ind.get? tc with
    | none => rw [hn] at h; exact absurd h (by simp)
    | some node =>
      rw [hn] at h
      cases node with
      | term t0 => exact absurd h (by simp)
      | prim old =>
        dsimp only at h
        cases ha : pick ((pset.primitives old.ret).filter (fun p => p.name ≠ old.name)) cAlt with
        | none => rw [ha] at h; exact absurd h (by simp)
        | some newp =>
          rw [ha] at h
          dsimp only at h
          cases hL : pickTerminals pset cT newp.args.tail 0 with
          | none => rw [hL] at h; exact absurd h (by simp)
          | some L =>
            rw [hL] at h
            dsimp only at h
            -- facts about the old and the new primitive
            have hmem := pick_mem ha
            rw [List.mem_filter] at hmem
            have hretnew : newp.ret = old.ret := hWFp old.ret newp hmem.1
            obtain ⟨-, hs2, hargsnew, -⟩ := goodPrimB_spec (hWFpg old.ret newp hmem.1)
            have hGold : goodPrimB old = true := by
              have := hG (GNode.prim old) (List.get?_mem hn)
              simpa [goodNodeB] using this
            obtain ⟨-, hsO, hargsO, hhypO⟩ := goodPrimB_spec hGold
            -- fresh terminals run over the new primitive's hyperparameter types
            have hLrun : ∀ K2, tcRun (hs2 ++ K2) L = some K2 := by
              have := pickTerminals_run pset hWFt cT newp.args.tail 0 L hL
              rw [hargsnew] at this
              exact this
            -- decompose the genome at the replaced primitive
            obtain ⟨hdec, hlenA⟩ := get?_decomp hn
            have hGA : GoodNodes pset.arguments (ind.take tc) :=
              fun n hx => hG n (List.mem_of_mem_take hx)
            have hGR : GoodNodes pset.arguments (ind.drop (tc + 1)) :=
              fun n hx => hG n (List.mem_of_mem_drop hx)
            -- run the prefix
            unfold TypeConsistent at hTC
            rw [hdec, tcRun_append] at hTC
            cases hKA : tcRun [GType.Predictions] (ind.take tc) with
            | none => rw [hKA] at hTC; exact absurd hTC (by simp)
            | some K0 =>
              rw [hKA] at hTC
              cases K0 with
              | nil => simp [tcRun, tcStep] at hTC
              | cons k0h K =>
                by_cases hro : (GNode.prim old).ret = k0h
                · simp only [tcRun, tcStep, if_pos hro] at hTC
                  -- pending context below the head is all-hyper
                  have hTH : tailHyper (k0h :: K) := by
                    refine tcRun_tailHyper (ind.take tc) [GType.Predictions] (k0h :: K) hGA ?_ hKA
                    intro x hx
                    simp at hx
                  have hKhyp : ∀ x ∈ K, x.isHyper = true := fun x hx => hTH x hx
                  -- split the suffix into data subtree, removed terminals and context rest
                  rw [hargsO] at hTC
                  rw [show (GType.Data :: hsO) ++ K = [GType.Data] ++ (hsO ++ K) from by simp] at hTC
                  obtain ⟨S, R2, hR1, hSrun, hR2run⟩ := tcRun_split (ind.drop (tc + 1)) [GType.Data] (hsO ++ K) hTC
                  obtain ⟨T, B, hR2, hTrun, hBrun⟩ := tcRun_split R2 hsO K hR2run
                  have hindfull : ind = ind.take tc ++ GNode.prim old :: (S ++ (T ++ B)) := by
                    conv_lhs => rw [hdec]
                    rw [hR1, hR2]
                  have hGS : GoodNodes pset.arguments S := by
                    intro n hx
                    exact hGR n (by rw [hR1]; exact List.mem_append_left _ hx)
                  have hGT : GoodNodes pset.arguments T := by
                    intro n hx
                    exact hGR n (by rw [hR1, hR2]; exact List.mem_append_right _ (List.mem_append_left _ hx))
                  have hGB : GoodNodes pset.arguments B := by
                    intro n hx
                    exact hGR n (by rw [hR1, hR2]; exact List.mem_append_right _ (List.mem_append_right _ hx))
                  obtain ⟨tms, hTmap, hTret⟩ := tcRun_hyper_terms hsO T hhypO hGT hTrun
                  have hTlen : T.length = hsO.length := by
                    rw [hTmap, List.length_map, ← hTret, List.length_map]
                  have hmlen : old.args.length - 1 = hsO.length := by
                    rw [hargsO]
                    simp
                  have hA2 : tcRun [GType.Predictions] (ind.take tc) = some (newp.ret :: K) := by
                    rw [hKA, hretnew]
                    rw [show old.ret = k0h from hro]
                  -- case analysis on the data subtree
                  rcases data_subtree_cases hSrun with ⟨d, hSd, hdret⟩ | ⟨q, S2, hSq, hqret, hqrun⟩
                  · -- the data argument is the data terminal itself
                    have hdval : d.value ∈ pset.arguments := by
                      refine goodTermB_data ?_ hdret
                      have := hGS (GNode.term d) (by rw [hSd]; exact List.mem_singleton_self _)
                      simpa [goodNodeB] using this
                    have hfut : find_unmatched_terminal (ind.drop (tc + 1)) = some 0 := by
                      rw [hR1, hSd]
                      exact fut_data_term d R2
                    rw [hfut] at h
                    dsimp only at h
                    have hget : ind.get? (0 + (tc + 1)) = some (GNode.term d) := by
                      conv_lhs => rw [hindfull]
                      rw [get?_after (ind.take tc) (GNode.prim old) (S ++ (T ++ B)) (0 + (tc + 1))
                        (by rw [hlenA]; omega)]
                      rw [hSd]
                      rfl
                    rw [hget] at h
                    dsimp only at h
                    rw [if_pos hdval] at h
                    have htake : ind.take (0 + (tc + 1) + 1) = ind.take tc ++ GNode.prim old :: S := by
                      conv_lhs => rw [hindfull]
                      refine take_mid2 (ind.take tc) (GNode.prim old) S (T ++ B) _ ?_
                      rw [hlenA, hSd]
                      simp
                    have hdrop : ind.drop (0 + (tc + 1) + 1 + (old.args.length - 1)) = B := by
                      conv_lhs => rw [hindfull]
                      refine drop_mid2 (ind.take tc) (GNode.prim old) S T B _ ?_
                      rw [hlenA, hSd, hmlen, ← hTlen]
                      simp
                    rw [htake, hdrop] at h
                    simp only [Option.some_inj, Prod.mk.injEq] at h
                    obtain ⟨hout, -⟩ := h
                    rw [← hout, set_splice (ind.take tc) (GNode.prim old) (GNode.prim newp) S L B tc hlenA.symm]
                    exact tcRun_chain (ind.take tc) newp S L B K hs2 hA2 hargsnew hSrun (hLrun K) hBrun
                  · -- the data argument is a primitive-headed subtree
                    cases hTB : T ++ B with
                    | nil =>
                      obtain ⟨hT0, hB0⟩ := List.append_eq_nil.mp hTB
                      have hfut : find_unmatched_terminal (ind.drop (tc + 1)) = none := by
                        rw [hR1, hR2, hT0, hB0, hSq]
                        rw [show (GNode.prim q :: S2) ++ ([] ++ []) = GNode.prim q :: (S2 ++ []) from by simp]
                        rw [fut_prim_head q S2 [] hqrun]
                        rfl
                      rw [hfut] at h
                      dsimp only at h
                      have hm0 : old.args.length - 1 = 0 := by
                        rw [hmlen, ← hTlen, hT0]
                        rfl
                      rw [if_pos hm0] at h
                      simp only [Option.some_inj, Prod.mk.injEq] at h
                      obtain ⟨hout, -⟩ := h
                      have hKnil : K = [] := by
                        rw [hB0] at hBrun
                        simpa [tcRun] using hBrun
                      have hindL : ind ++ L =
                          (ind.take tc ++ GNode.prim old :: S) ++ L ++ [] := by
                        conv_lhs => rw [hindfull, hT0, hB0]
                        simp
                      rw [← hout, hindL,
                        set_splice (ind.take tc) (GNode.prim old) (GNode.prim newp) S L [] tc hlenA.symm]
                      refine tcRun_chain (ind.take tc) newp S L [] K hs2 hA2 hargsnew hSrun (hLrun K) ?_
                      rw [hKnil]
                      rfl
                    | cons c rest3 =>
                      -- the unmatched terminal is the first hyperparameter terminal after the subtree
                      have hc : ∃ ct : Terminal, c = GNode.term ct ∧ ct.ret.isHyper = true := by
                        cases hT : T with
                        | nil =>
                          rw [hT] at hTB
                          simp only [List.nil_append] at hTB
                          rw [hTB] at hBrun
                          refine run_head_term pset.arguments hKhyp hBrun ?_
                          exact hGB c (by rw [hTB]; exact List.mem_cons_self _ _)
                        | cons t1 T2 =>
                          cases htms : tms with
                          | nil => rw [htms] at hTmap; rw [hTmap] at hT; simp at hT
                          | cons ct tms2 =>
                            rw [htms] at hTmap hTret
                            have hchead : c = GNode.term ct := by
                              rw [hTmap] at hTB
                              simp at hTB
                              exact hTB.1.symm
                            refine ⟨ct, hchead, ?_⟩
                            cases hsO with
                            | nil => simp at hTret
                            | cons h0 hs3 =>
                              have : ct.ret = h0 := by
                                simp at hTret
                                exact hTret.1
                              rw [this]
                              exact hhypO h0 (List.mem_cons_self _ _)
                      obtain ⟨ct, hceq, hcret⟩ := hc
                      have hcval : ct.value ∉ pset.arguments := by
                        refine goodTermB_hyper ?_ hcret
                        have hcmem : GNode.term ct ∈ T ++ B := by
                          rw [hTB, ← hceq]
                          exact List.mem_cons_self _ _
                        rcases List.mem_append.mp hcmem with hx | hx
                        · simpa [goodNodeB] using hGT _ hx
                        · simpa [goodNodeB] using hGB _ hx
                      have hfut : find_unmatched_terminal (ind.drop (tc + 1)) = some (1 + S2.length) := by
                        rw [hR1, hR2, hSq, hTB]
                        rw [show (GNode.prim q :: S2) ++ (c :: rest3) = GNode.prim q :: (S2 ++ (c :: rest3)) from by simp]
                        rw [fut_prim_head q S2 (c :: rest3) hqrun]
                        rw [hceq]
                        exact futGo_nil_term ct rest3 (1 + S2.length)
                      rw [hfut] at h
                      dsimp only at h
                      have hget : ind.get? (1 + S2.length + (tc + 1)) = some (GNode.term ct) := by
                        conv_lhs => rw [hindfull]
                        rw [get?_mid2 (ind.take tc) (GNode.prim old) S (T ++ B) (1 + S2.length + (tc + 1))
                          (by rw [hlenA, hSq]; simp; omega)]
                        rw [hTB, hceq]
                        rfl
                      rw [hget] at h
                      dsimp only at h
                      rw [if_neg hcval] at h
                      have htake : ind.take (1 + S2.length + (tc + 1)) = ind.take tc ++ GNode.prim old :: S := by
                        conv_lhs => rw [hindfull]
                        refine take_mid2 (ind.take tc) (GNode.prim old) S (T ++ B) _ ?_
                        rw [hlenA, hSq]
                        simp
                        omega
                      have hdrop : ind.drop (1 + S2.length + (tc + 1) + (old.args.length - 1)) = B := by
                        conv_lhs => rw [hindfull]
                        refine drop_mid2 (ind.take tc) (GNode.prim old) S T B _ ?_
                        rw [hlenA, hSq, hmlen, ← hTlen]
                        simp
                        omega
                      rw [htake, hdrop] at h
                      simp only [Option.some_inj, Prod.mk.injEq] at h
                      obtain ⟨hout, -⟩ := h
                      rw [← hout, set_splice (ind.take tc) (GNode.prim old) (GNode.prim newp) S L B tc hlenA.symm]
                      exact tcRun_chain (ind.take tc) newp S L B K hs2 hA2 hargsnew hSrun (hLrun K) hBrun
                · simp only [tcRun, tcStep, if_neg hro] at hTC
                  exact absurd hTC (by simp)

theorem random_valid_mutation_tc
    (mutInsertE mutShrinkE : List GNode → Option (List GNode × List GNode))
    (pset : PrimitiveSetTyped) (ind : List GNode)
    (hWFp : ∀ ty p, p ∈ pset.primitives ty → p.ret = ty)
    (hWFpg : ∀ ty p, p ∈ pset.primitives ty → goodPrimB p = true)
    (hWFt : ∀ ty t, t ∈ pset.terminals ty → t.ret = ty)
    (hTC : TypeConsistent ind) (hG : GoodNodes pset.arguments ind)
    (hIns : ∀ out post, mutInsertE ind = some (out, post) → TypeConsistent out)
    (hShr : ∀ out post, mutShrinkE ind = some (out, post) → TypeConsistent out)
    (cOp cPos cAlt : Nat) (cT : Nat → Nat) (out post : List GNode)
    (h : random_valid_mutation mutInsertE mutShrinkE pset ind cOp cPos cAlt cT = some (out, post)) :
    TypeConsistent out := by
  unfold random_valid_mutation at h
  cases hop : pick (available_mutations ind) cOp with
  | none => rw [hop] at h; exact absurd h (by simp)
  | some op =>
    rw [hop] at h
    cases op with
    | replacePrimitive =>
      exact mut_replace_primitive_tc pset ind hWFp hWFpg hWFt hTC hG cPos cAlt cT out post h
    | insertOp => exact hIns out post h
    | shrinkOp => exact hShr out post h
    | replaceTerminal =>
      exact mut_replace_terminal_tc pset ind hWFt hTC cPos cAlt out post h

theorem demoPset_WFp : ∀ ty p, p ∈ demoPset.primitives ty → p.ret = ty := by
  intro ty p hp
  cases ty with
  | Data =>
    simp [demoPset] at hp
    rcases hp with h | h <;> subst h <;> rfl
  | Predictions =>
    simp [demoPset] at hp
    rcases hp with h | h <;> subst h <;> rfl
  | Hyper k => simp [demoPset] at hp

theorem demoPset_WFpg : ∀ ty p, p ∈ demoPset.primitives ty → goodPrimB p = true := by
  intro ty p hp
  cases ty with
  | Data =>
    simp [demoPset] at hp
    rcases hp with h | h <;> subst h <;> decide
  | Predictions =>
    simp [demoPset] at hp
    rcases hp with h | h <;> subst h <;> decide
  | Hyper k => simp [demoPset] at hp

theorem demoPset_WFt : ∀ ty t, t ∈ demoPset.terminals ty → t.ret = ty := by
  intro ty t ht
  cases ty with
  | Data =>
    simp [demoPset] at ht
    subst ht; rfl
  | Predictions => simp [demoPset] at ht
  | Hyper k =>
    match k with
    | 0 =>
      simp [demoPset] at ht
      rcases ht with h | h <;> subst h <;> rfl
    | 1 =>
      simp [demoPset] at ht
      rcases ht with h | h <;> subst h <;> rfl
    | Nat.succ (Nat.succ k2) => simp [demoPset] at ht

/-- Claim C1: for every genome satisfying the §3 type-consistency invariant
(built over a `pset_from_config`-shaped primitive set), a succeeding
application of `mut_replace_terminal`, `mut_replace_primitive`, or
`random_valid_mutation` yields a genome that again satisfies the invariant.
(`gp.mutInsert` and `gp.mutShrink` are external deap operators: for the
`random_valid_mutation` part they enter as parameters assumed to honour the
same contract.) -/
theorem C1_mutation_preserves_type_consistency
    (pset : PrimitiveSetTyped) (ind : List GNode)
    (hWFp : ∀ ty p, p ∈ pset.primitives ty → p.ret = ty)
    (hWFpg : ∀ ty p, p ∈ pset.primitives ty → goodPrimB p = true)
    (hWFt : ∀ ty t, t ∈ pset.terminals ty → t.ret = ty)
    (hTC : TypeConsistent ind) (hG : GoodNodes pset.arguments ind) :
    (∀ cPos cAlt out post,
      mut_replace_terminal pset ind cPos cAlt = some (out, post) → TypeConsistent out) ∧
    (∀ cPos cAlt cT out post,
      mut_replace_primitive pset ind cPos cAlt cT = some (out, post) → TypeConsistent out) ∧
    (∀ mutInsertE mutShrinkE : List GNode → Option (List GNode × List GNode),
      (∀ out post, mutInsertE ind = some (out, post) → TypeConsistent out) →
      (∀ out post, mutShrinkE ind = some (out, post) → TypeConsistent out) →
      ∀ cOp cPos cAlt cT out post,
        random_valid_mutation mutInsertE mutShrinkE pset ind cOp cPos cAlt cT = some (out, post) →
        TypeConsistent out) := by
  refine ⟨?_, ?_, ?_⟩
  · intro cPos cAlt out post h
    exact mut_replace_terminal_tc pset ind hWFt hTC cPos cAlt out post h
  · intro cPos cAlt cT out post h
    exact mut_replace_primitive_tc pset ind hWFp hWFpg hWFt hTC hG cPos cAlt cT out post h
  · intro mI mS hIns hShr cOp cPos cAlt cT out post h
    exact random_valid_mutation_tc mI mS pset ind hWFp hWFpg hWFt hTC hG hIns hShr
      cOp cPos cAlt cT out post h

/-- Witness for C1: on the concrete genome `clfA(tfC(data, q=1), p=1)` the
terminal replacement at choice (0,0) succeeds and the theorem yields type
consistency of its concrete result. -/
theorem C1_mutation_preserves_type_consistency_witness :
    TypeConsistent [GNode.prim clfA, GNode.prim tfC, GNode.term dataT,
      GNode.term h1b, GNode.term h0a] :=
  (C1_mutation_preserves_type_consistency demoPset demoGenome demoPset_WFp demoPset_WFpg
    demoPset_WFt (by decide) (by decide)).1 0 0
    [GNode.prim clfA, GNode.prim tfC, GNode.term dataT, GNode.term h1b, GNode.term h0a]
    [GNode.prim clfA, GNode.prim tfC, GNode.term dataT, GNode.term h1b, GNode.term h0a]
    (by decide)

/-- Counterexample to C3 as stated: for the genome `clfA(tfC(data, q=1), p=1)`
with the root `clfA` replaced, the scan seeded with `clfA`'s declared
argument types consumes the whole remaining suffix and reports *no* unmatched
terminal, while the scan the code actually performs (seeded empty) stops at
index 3 (the terminal `p=1` bounding `clfA`'s own arguments) and the mutation
succeeds using that bound. -/
theorem C3_counterexample_seeded_scan :
    find_unmatched_terminal_seeded clfA.args (demoGenome.drop 1) = none ∧
    find_unmatched_terminal (demoGenome.drop 1) = some 3 ∧
    (mut_replace_primitive demoPset demoGenome 0 0 (fun _ => 0)).isSome = true := by
  decide

/-- Claim C3 amended: the forward scan locating the discarded span starts
immediately after the replaced primitive with an *empty* pending queue; a
node matching the queue head pops it and a primitive pushes its argument
types onto the front, so the scan consumes exactly the replaced primitive's
data-argument subtree `S` and ends at the first terminal not expected by the
queue: at the data terminal itself when the data argument is a leaf (the
caller then skips it, excluding it from the discarded span), at the first
following terminal otherwise, and reports no unmatched terminal when nothing
follows the data subtree. -/
theorem C3_amended_empty_seed_scan (S Z : List GNode)
    (hS : tcRun [GType.Data] S = some []) :
    (∀ d : Terminal, S = [GNode.term d] → find_unmatched_terminal (S ++ Z) = some 0) ∧
    (∀ (q : Primitive) (S2 : List GNode), S = GNode.prim q :: S2 →
      (Z = [] → find_unmatched_terminal (S ++ Z) = none) ∧
      (∀ (c : Terminal) (Z2 : List GNode), Z = GNode.term c :: Z2 →
        find_unmatched_terminal (S ++ Z) = some S.length)) := by
  constructor
  · intro d hSd
    rw [hSd]
    exact fut_data_term d Z
  · intro q S2 hSq
    have hqrun : tcRun q.args S2 = some [] := by
      rcases data_subtree_cases hS with ⟨d, hd, -⟩ | ⟨q2, S3, hq2, -, hrun⟩
      · rw [hSq] at hd; simp at hd
      · rw [hSq] at hq2
        injection hq2 with h1 h2
        injection h1 with h1
        rw [h1, h2]
        exact hrun
    constructor
    · intro hZ
      rw [hSq, hZ]
      rw [show (GNode.prim q :: S2) ++ ([] : List GNode) = GNode.prim q :: (S2 ++ []) from by simp]
      rw [fut_prim_head q S2 [] hqrun]
      rfl
    · intro c Z2 hZ
      rw [hSq, hZ]
      rw [show (GNode.prim q :: S2) ++ (GNode.term c :: Z2) =
            GNode.prim q :: (S2 ++ (GNode.term c :: Z2)) from by simp]
      rw [fut_prim_head q S2 (GNode.term c :: Z2) hqrun]
      rw [futGo_nil_term c Z2 (1 + S2.length)]
      simp only [List.length_cons, Option.some_inj]
      omega

/-- Witness for the amended C3: the scan on the suffix of
`clfA(tfC(data, q=1), p=1)` after `clfA` stops at the terminal `p=1`, at
index 3 = length of the data subtree. -/
theorem C3_amended_empty_seed_scan_witness :
    find_unmatched_terminal ([GNode.prim tfC, GNode.term dataT, GNode.term h1a]
      ++ [GNode.term h0a]) =
      some [GNode.prim tfC, GNode.term dataT, GNode.term h1a].length :=
  ((C3_amended_empty_seed_scan [GNode.prim tfC, GNode.term dataT, GNode.term h1a]
    [GNode.term h0a] (by decide)).2 tfC [GNode.term dataT, GNode.term h1a] rfl).2
    h0a [] rfl

theorem mut_replace_terminal_shape {pset : PrimitiveSetTyped} {ind : List GNode}
    {cPos cAlt : Nat} {out post : List GNode}
    (h : mut_replace_terminal pset ind cPos cAlt = some (out, post)) :
    post = out ∧ ∃ (tc : Nat) (oldt newt : Terminal),
      ind.get? tc = some (GNode.term oldt) ∧ newt ≠ oldt ∧
      out = ind.set tc (GNode.term newt) := by
  unfold mut_replace_terminal at h
  cases hp : pick (eligibleTermIdxs pset ind) cPos with
  | none => rw [hp] at h; exact absurd h (by simp)
  | some tc =>
    rw [hp] at h
    dsimp only at h
    cases hn : ind.get? tc with
    | none => rw [hn] at h; exact absurd h (by simp)
    | some node =>
      rw [hn] at h
      cases node with
      | prim p => exact absurd h (by simp)
      | term old =>
        dsimp only at h
        cases ha : pick ((pset.terminals old.ret).filter (fun t => t ≠ old)) cAlt with
        | none => rw [ha] at h; exact absurd h (by simp)
        | some newt =>
          rw [ha] at h
          simp only [Option.some_inj, Prod.mk.injEq] at h
          obtain ⟨hout, hpost⟩ := h
          have hmem := pick_mem ha
          rw [List.mem_filter] at hmem
          have hne : newt ≠ old := by simpa using hmem.2
          exact ⟨by rw [← hout, ← hpost], tc, old, newt, hn, hne, hout.symm⟩

theorem mut_replace_primitive_shape {pset : PrimitiveSetTyped} {ind : List GNode}
    {cPos cAlt : Nat} {cT : Nat → Nat} {out post : List GNode}
    (h : mut_replace_primitive pset ind cPos cAlt cT = some (out, post)) :
    post = ind ∧ ∃ (tc : Nat) (old newp : Primitive),
      ind.get? tc = some (GNode.prim old) ∧ newp.name ≠ old.name ∧
      out.get? tc = some (GNode.prim newp) := by
  unfold mut_replace_primitive at h
  cases hp : pick (eligiblePrimIdxs pset ind) cPos with
  | none => rw [hp] at h; exact absurd h (by simp)
  | some tc =>
    rw [hp] at h
    dsimp only at h
    cases hn : ind.get? tc with
    | none => rw [hn] at h; exact absurd h (by simp)
    | some node =>
      rw [hn] at h
      cases node with
      | term t0 => exact absurd h (by simp)
      | prim old =>
        dsimp only at h
        cases ha : pick ((pset.primitives old.ret).filter (fun p => p.name ≠ old.name)) cAlt with
        | none => rw [ha] at h; exact absurd h (by simp)
        | some newp =>
          rw [ha] at h
          dsimp only at h
          cases hL : pickTerminals pset cT newp.args.tail 0 with
          | none => rw [hL] at h; exact absurd h (by simp)
          | some L =>
            rw [hL] at h
            dsimp only at h
            have hmem := pick_mem ha
            rw [List.mem_filter] at hmem
            have hname : newp.name ≠ old.name := by simpa using hmem.2
            have htclt : tc < ind.length := by
              rcases List.get?_eq_some.mp hn with ⟨hl, -⟩
              exact hl
            cases hf : find_unmatched_terminal (ind.drop (tc + 1)) with
            | none =>
              rw [hf] at h
              dsimp only at h
              by_cases hm : old.args.length - 1 = 0
              · rw [if_pos hm] at h
                simp only [Option.some_inj, Prod.mk.injEq] at h
                obtain ⟨hout, hpost⟩ := h
                refine ⟨hpost.symm, tc, old, newp, hn, hname, ?_⟩
                rw [← hout]
                exact List.get?_set_eq_of_lt _ (by simp; omega)
              · rw [if_neg hm] at h
                exact absurd h (by simp)
            | some ti0 =>
              rw [hf] at h
              dsimp only at h
              cases hg : ind.get? (ti0 + (tc + 1)) with
              | none => rw [hg] at h; exact absurd h (by simp)
              | some node2 =>
                rw [hg] at h
                cases node2 with
                | prim p2 => exact absurd h (by simp)
                | term t2 =>
                  dsimp only at h
                  simp only [Option.some_inj, Prod.mk.injEq] at h
                  obtain ⟨hout, hpost⟩ := h
                  refine ⟨hpost.symm, tc, old, newp, hn, hname, ?_⟩
                  rw [← hout]
                  refine List.get?_set_eq_of_lt _ ?_
                  have hta : tc + 1 ≤ (if t2.value ∈ pset.arguments then ti0 + (tc + 1) + 1
                      else ti0 + (tc + 1)) := by
                    split <;> omega
                  have htake : tc + 1 ≤ (List.take (if t2.value ∈ pset.arguments then
                      ti0 + (tc + 1) + 1 else ti0 + (tc + 1)) ind).length ∨
                      (List.take (if t2.value ∈ pset.arguments then ti0 + (tc + 1) + 1
                        else ti0 + (tc + 1)) ind).length = ind.length := by
                    rw [List.length_take]
                    omega
                  simp only [List.length_append]
                  rcases htake with h1 | h1 <;> omega

/-- Counterexample to C6 as stated: `mut_replace_terminal` does *not* have
copy-on-write semantics.  On the genome `clfA(tfC(data, q=1), p=1)` it
succeeds, and the node sequence of the genome object passed in (the second
component of the embedded result, which models the object's state after the
call) differs from its sequence before the call. -/
theorem C6_counterexample_in_place_mutation :
    mut_replace_terminal demoPset demoGenome 0 0 =
      some ([GNode.prim clfA, GNode.prim tfC, GNode.term dataT, GNode.term h1b, GNode.term h0a],
        [GNode.prim clfA, GNode.prim tfC, GNode.term dataT, GNode.term h1b, GNode.term h0a]) ∧
    ([GNode.prim clfA, GNode.prim tfC, GNode.term dataT, GNode.term h1b, GNode.term h0a]
      ≠ demoGenome) := by
  decide

/-- Claim C6 amended: `mut_replace_primitive` has copy-on-write semantics —
on success the passed-in genome is left unchanged and the returned genome is
a new, different sequence; `mut_replace_terminal`, however, mutates the
passed-in genome in place — on success the passed-in genome's node sequence
after the call equals the returned genome and differs from the original. -/
theorem C6_amended_copy_semantics (pset : PrimitiveSetTyped) (ind : List GNode) :
    (∀ cPos cAlt cT out post,
      mut_replace_primitive pset ind cPos cAlt cT = some (out, post) →
      post = ind ∧ out ≠ ind) ∧
    (∀ cPos cAlt out post,
      mut_replace_terminal pset ind cPos cAlt = some (out, post) →
      post = out ∧ out ≠ ind) := by
  constructor
  · intro cPos cAlt cT out post h
    obtain ⟨hpost, tc, old, newp, hn, hname, hout⟩ := mut_replace_primitive_shape h
    refine ⟨hpost, ?_⟩
    intro heq
    rw [heq, hn] at hout
    have h1 : GNode.prim old = GNode.prim newp := Option.some_inj.mp hout
    have h2 : old = newp := by injection h1
    exact hname (by rw [h2])
  · intro cPos cAlt out post h
    obtain ⟨hpost, tc, oldt, newt, hn, hne, hout⟩ := mut_replace_terminal_shape h
    refine ⟨hpost, ?_⟩
    intro heq
    have htclt : tc < ind.length := by
      rcases List.get?_eq_some.mp hn with ⟨hl, -⟩
      exact hl
    have : ind.get? tc = some (GNode.term newt) := by
      rw [← heq, hout]
      exact List.get?_set_eq_of_lt _ htclt
    rw [hn] at this
    have h1 : GNode.term oldt = GNode.term newt := Option.some_inj.mp this
    have h2 : oldt = newt := by injection h1
    exact hne h2.symm

/-- Witness for the amended C6: on the concrete genome, replacing the root
primitive by choices (0,0) leaves the input untouched, and replacing a
terminal by choices (0,0) overwrites the input. -/
theorem C6_amended_copy_semantics_witness :
    ([GNode.prim clfA, GNode.prim tfC, GNode.term dataT, GNode.term h1b, GNode.term h0a] =
        [GNode.prim clfA, GNode.prim tfC, GNode.term dataT, GNode.term h1b, GNode.term h0a] ∧
      [GNode.prim clfA, GNode.prim tfC, GNode.term dataT, GNode.term h1b, GNode.term h0a]
        ≠ demoGenome) ∧
    (demoGenome = demoGenome ∧
      [GNode.prim clfB, GNode.prim tfC, GNode.term dataT, GNode.term h1a, GNode.term h0a]
        ≠ demoGenome) :=
  ⟨(C6_amended_copy_semantics demoPset demoGenome).2 0 0
      [GNode.prim clfA, GNode.prim tfC, GNode.term dataT, GNode.term h1b, GNode.term h0a]
      [GNode.prim clfA, GNode.prim tfC, GNode.term dataT, GNode.term h1b, GNode.term h0a]
      (by decide),
    (C6_amended_copy_semantics demoPset demoGenome).1 0 0 (fun _ => 0)
      [GNode.prim clfB, GNode.prim tfC, GNode.term dataT, GNode.term h1a, GNode.term h0a]
      demoGenome (by decide)⟩

theorem zip_left_eq {α β : Type _} (a : List α) : ∀ (b c : List β), a.length = b.length →
    List.zip a (b ++ c) = List.zip a b := by
  induction a with
  | nil => intro b c _; simp
  | cons x a2 ih =>
    intro b c h
    cases b with
    | nil => simp at h
    | cons y b2 =>
      simp only [List.cons_append, List.zip_cons_cons]
      rw [ih b2 c (by simpa using h)]

theorem upsert_not_mem (l : List (String × String)) (k v : String)
    (h : k ∉ l.map Prod.fst) : upsert l k v = l ++ [(k, v)] := by
  unfold upsert
  rw [if_neg]
  intro hc
  simp only [List.any_eq_true, decide_eq_true_eq] at hc
  obtain ⟨kv, hkv, heq⟩ := hc
  exact h (List.mem_map.mpr ⟨kv, hkv, heq⟩)

theorem kwargs_length (pset : PrimitiveSetTyped) :
    ∀ (pairs : List (GType × GNode)) (acc : List (String × String)),
      (acc.map Prod.fst ++ pairs.map (fun rp => extract_arg_name rp.2.name)).Nodup →
      (pairs.foldl (fun acc2 rp =>
        upsert acc2 (extract_arg_name rp.2.name) (pset.context rp.2.name)) acc).length =
        acc.length + pairs.length := by
  intro pairs
  induction pairs with
  | nil => intro acc _; simp
  | cons rp pairs2 ih =>
    intro acc h
    simp only [List.foldl_cons]
    simp only [List.map_cons] at h
    have hk : extract_arg_name rp.2.name ∉ acc.map Prod.fst := by
      rw [List.nodup_append] at h
      intro hmem
      exact h.2.2 hmem (List.mem_cons_self _ _)
    rw [upsert_not_mem acc _ _ hk]
    have h2 : ((acc ++ [(extract_arg_name rp.2.name, pset.context rp.2.name)]).map Prod.fst
        ++ pairs2.map (fun rp => extract_arg_name rp.2.name)).Nodup := by
      simp only [List.map_append, List.map_cons, List.map_nil]
      rw [List.append_assoc]
      simpa using h
    rw [ih _ h2]
    simp
    omega

theorem mem_zip_rets (l : List Terminal) :
    ∀ rp ∈ List.zip (l.map Terminal.ret) (l.map GNode.term), rp.1 = rp.2.ret := by
  induction l with
  | nil => intro rp h; simp at h
  | cons t l2 ih =>
    intro rp h
    simp only [List.map_cons, List.zip_cons_cons, List.mem_cons] at h
    rcases h with h | h
    · rw [h]; rfl
    · exact ih rp h

theorem zip_map_keys (hname : Nat → String) :
    ∀ (l : List Terminal), (∀ t ∈ l, argNamesOKB hname (GNode.term t) = true) →
      (∀ t ∈ l, t.ret.isHyper = true) →
      (List.zip (l.map Terminal.ret) (l.map GNode.term)).map
        (fun rp => extract_arg_name rp.2.name) = l.map (fun t => hyperName hname t.ret) := by
  intro l
  induction l with
  | nil => intro _ _; simp
  | cons t l2 ih =>
    intro h1 h2
    simp only [List.map_cons, List.zip_cons_cons]
    have hhead : extract_arg_name t.name = hyperName hname t.ret := by
      have hhyp := h2 t (List.mem_cons_self _ _)
      have han : (match t.ret with
          | GType.Hyper k => decide (extract_arg_name t.name = hname k)
          | _ => true) = true := h1 t (List.mem_cons_self _ _)
      cases hret : t.ret with
      | Data => rw [hret] at hhyp; simp [GType.isHyper] at hhyp
      | Predictions => rw [hret] at hhyp; simp [GType.isHyper] at hhyp
      | Hyper k =>
        rw [hret] at han
        simp only [decide_eq_true_eq] at han
        rw [han]
        rfl
    have hhead2 : extract_arg_name (GNode.term t).name = hyperName hname t.ret := hhead
    rw [ih (fun x hx => h1 x (List.mem_cons_of_mem _ hx))
      (fun x hx => h2 x (List.mem_cons_of_mem _ hx)), hhead2]

theorem compileLoop_no_raise (pset : PrimitiveSetTyped)
    (checks : String → Option (List (String × String) → Bool)) (hname : Nat → String) :
    ∀ (fuel : Nat) (ind : List GNode), ind.length ≤ fuel →
      ∀ t : GType, tcRun [t] ind = some [] →
      GoodNodes pset.arguments ind → ArgNamesOK hname ind →
      ∀ comps counter, ∃ r, compileLoop pset checks ind comps counter = Except.ok r := by
  intro fuel
  induction fuel with
  | zero =>
    intro ind hlen t hrun _ _ comps counter
    have h0 : ind = [] := List.length_eq_zero.mp (Nat.le_zero.mp hlen)
    subst h0
    simp [tcRun] at hrun
  | succ fuel ih =>
    intro ind hlen t hrun hG hAN comps counter
    cases ind with
    | nil => exact ⟨some comps, by simp [compileLoop]⟩
    | cons n rest =>
      by_cases hr : n.ret = t
      · cases n with
        | term tm =>
          simp only [tcRun, tcStep, if_pos hr] at hrun
          obtain ⟨hrest, -⟩ := tcRun_nil_left hrun
          subst hrest
          exact ⟨some comps, by simp [compileLoop]⟩
        | prim p =>
          simp only [tcRun, tcStep, if_pos hr] at hrun
          rw [List.append_nil] at hrun
          obtain ⟨-, hs, hargs, hhyp⟩ := goodPrimB_spec
            (by simpa [goodNodeB] using hG (GNode.prim p) (List.mem_cons_self _ _))
          rw [hargs] at hrun
          rw [show (GType.Data :: hs : List GType) = [GType.Data] ++ hs from rfl] at hrun
          obtain ⟨S, T2, hrest2, hSrun, hTrun⟩ := tcRun_split rest [GType.Data] hs hrun
          have hGrest : GoodNodes pset.arguments rest :=
            fun m hm => hG m (List.mem_cons_of_mem _ hm)
          have hANrest : ArgNamesOK hname rest :=
            fun m hm => hAN m (List.mem_cons_of_mem _ hm)
          have hGT : GoodNodes pset.arguments T2 :=
            fun m hm => hGrest m (by rw [hrest2]; exact List.mem_append_right _ hm)
          have hGS : GoodNodes pset.arguments S :=
            fun m hm => hGrest m (by rw [hrest2]; exact List.mem_append_left _ hm)
          have hANS : ArgNamesOK hname S :=
            fun m hm => hANrest m (by rw [hrest2]; exact List.mem_append_left _ hm)
          obtain ⟨tms, hTmap, hTret⟩ := tcRun_hyper_terms hs T2 hhyp hGT hTrun
          have htmslen : tms.length = hs.length := by rw [← hTret, List.length_map]
          have hTlen : T2.length = hs.length := by rw [hTmap, List.length_map, htmslen]
          -- the filtered argument list is exactly the hyperparameter types
          have hreq : p.args.filter (fun ty => ty ≠ GType.Data) = hs := by
            rw [hargs]
            rw [List.filter_cons]
            have hd : (decide (GType.Data ≠ GType.Data)) = false := by simp
            rw [if_neg (by simp)]
            refine List.filter_eq_self.mpr ?_
            intro a ha
            have := hhyp a ha
            cases a <;> simp [GType.isHyper] at this ⊢
          -- the zip in expression_to_component reduces to the removed terminals
          have hzip : List.zip ((p.args.filter (fun ty => ty ≠ GType.Data)).reverse) rest.reverse
              = List.zip (tms.reverse.map Terminal.ret) (tms.reverse.map GNode.term) := by
            rw [hreq, hrest2, List.reverse_append, hTmap]
            rw [zip_left_eq _ _ _ (by simp [htmslen])]
            rw [← hTret]
            rw [List.map_reverse, List.map_reverse]
          have hmemrets : ∀ t2 ∈ tms.reverse, t2.ret.isHyper = true := by
            intro t2 ht2
            rw [List.mem_reverse] at ht2
            have : t2.ret ∈ hs := by
              rw [← hTret]
              exact List.mem_map_of_mem _ ht2
            exact hhyp _ this
          have hmemnames : ∀ t2 ∈ tms.reverse, argNamesOKB hname (GNode.term t2) = true := by
            intro t2 ht2
            rw [List.mem_reverse] at ht2
            refine hANrest (GNode.term t2) ?_
            rw [hrest2, hTmap]
            exact List.mem_append_right _ (List.mem_map_of_mem _ ht2)
          have hall : (List.zip ((p.args.filter (fun ty => ty ≠ GType.Data)).reverse)
              rest.reverse).all (fun rp => rp.1 = rp.2.ret) = true := by
            rw [hzip, List.all_eq_true]
            intro rp hrp
            exact decide_eq_true (mem_zip_rets tms.reverse rp hrp)
          have hnodup : ((List.zip ((p.args.filter (fun ty => ty ≠ GType.Data)).reverse)
              rest.reverse).map (fun rp => extract_arg_name rp.2.name)).Nodup := by
            rw [hzip, zip_map_keys hname tms.reverse hmemnames hmemrets]
            have h1 : tms.reverse.map (fun t2 => hyperName hname t2.ret)
                = (hs.map (hyperName hname)).reverse := by
              rw [← hTret]
              simp [List.map_map, Function.comp]
            rw [h1, List.nodup_reverse]
            have han : decide ((p.args.tail.map (hyperName hname)).Nodup) = true :=
              hAN (GNode.prim p) (List.mem_cons_self _ _)
            rw [hargs] at han
            simpa using han
          have hziplen : (List.zip ((p.args.filter (fun ty => ty ≠ GType.Data)).reverse)
              rest.reverse).length = hs.length := by
            rw [hzip, List.length_zip]
            simp [htmslen]
          -- evaluate expression_to_component
          cases hE : expression_to_component p rest.reverse pset checks with
          | none =>
            refine ⟨none, ?_⟩
            rw [show compileLoop pset checks (GNode.prim p :: rest) comps counter
              = Except.ok none from by simp [compileLoop, hE]]
          | some pair =>
            obtain ⟨component, n_kwargs⟩ := pair
            have hnk : n_kwargs = hs.length := by
              unfold expression_to_component at hE
              rw [if_pos hall] at hE
              dsimp only at hE
              split at hE
              · simp only [Option.some_inj, Prod.mk.injEq] at hE
                rw [← hE.2]
                rw [kwargs_length pset _ [] (by simpa using hnodup)]
                simpa using hziplen
              · exact absurd hE (by simp)
            -- the remaining genome after stripping this primitive's terminals
            have hrestlen : rest.length = S.length + hs.length := by
              rw [hrest2, List.length_append, hTlen]
            by_cases hk0 : n_kwargs = 0
            · -- no terminals to strip: hs = [] and rest = S
              have hs0 : hs = [] := by
                rw [hnk] at hk0
                exact List.length_eq_zero.mp hk0
              have hT20 : T2 = [] := by
                rw [hs0] at hTlen
                exact List.length_eq_zero.mp hTlen
              have hrestS : rest = S := by rw [hrest2, hT20, List.append_nil]
              obtain ⟨r2, hr2⟩ := ih rest (by simpa using hlen) GType.Data
                (by rw [hrestS]; exact hSrun) hGrest hANrest
                (comps ++ [(p.name ++ toString (counter p.name), component)])
                (fun s => if s = p.name then counter s + 1 else counter s)
              refine ⟨r2, ?_⟩
              rw [show compileLoop pset checks (GNode.prim p :: rest) comps counter
                = compileLoop pset checks rest
                    (comps ++ [(p.name ++ toString (counter p.name), component)])
                    (fun s => if s = p.name then counter s + 1 else counter s) from by
                  simp [compileLoop, hE, hk0]]
              exact hr2
            · -- strip the last n_kwargs = |hs| terminals, leaving the data subtree
              have htake : rest.take (rest.length - n_kwargs) = S := by
                rw [hnk, hrestlen, Nat.add_sub_cancel, hrest2]
                exact List.take_left S T2
              obtain ⟨r2, hr2⟩ := ih S
                (by
                  have : S.length ≤ rest.length := by omega
                  simp only [List.length_cons] at hlen
                  omega)
                GType.Data hSrun hGS hANS
                (comps ++ [(p.name ++ toString (counter p.name), component)])
                (fun s => if s = p.name then counter s + 1 else counter s)
              refine ⟨r2, ?_⟩
              rw [show compileLoop pset checks (GNode.prim p :: rest) comps counter
                = compileLoop pset checks (rest.take (rest.length - n_kwargs))
                    (comps ++ [(p.name ++ toString (counter p.name), component)])
                    (fun s => if s = p.name then counter s + 1 else counter s) from by
                  simp [compileLoop, hE, hk0]]
              rw [htake]
              exact hr2
      · cases n <;> simp [tcRun, tcStep, if_neg hr] at hrun

/-- Counterexample to C2 as stated: on the node sequence consisting of a
terminal followed by another node, `compile_individual` reaches the
`raise Exception` branch (a terminal with a non-empty remainder) and raises
instead of returning a pipeline or the sentinel. -/
theorem C2_counterexample_compile_raises :
    compile_individual [GNode.term h0a, GNode.term h0a] demoPset (fun _ => none) [] =
      Except.error () := by
  unfold compile_individual
  rw [show compileLoop demoPset (fun _ => none) [GNode.term h0a, GNode.term h0a] []
      (fun _ => 0) = Except.error () from by simp [compileLoop]]

/-- Claim C2 amended: for every *type-consistent* genome over a
`pset_from_config`-shaped primitive set whose per-operator hyperparameter
names are distinct — i.e. every genome produced by seeding, mutation or
reproduction — `compile_individual` returns a compiled pipeline or the
uncompilable sentinel (`None`), never a raised exception; parameter-check
rejections surface as the sentinel.  (On arbitrary ill-typed sequences the
code can raise, see the counterexample.) -/
theorem C2_amended_compile_never_raises (pset : PrimitiveSetTyped)
    (checks : String → Option (List (String × String) → Bool)) (hname : Nat → String)
    (preprocessing_steps : List Component) (expr : List GNode)
    (hTC : TypeConsistent expr) (hG : GoodNodes pset.arguments expr)
    (hAN : ArgNamesOK hname expr) :
    ∃ r, compile_individual expr pset checks preprocessing_steps = Except.ok r := by
  obtain ⟨r, hr⟩ := compileLoop_no_raise pset checks hname expr.length expr le_rfl
    GType.Predictions hTC hG hAN [] (fun _ => 0)
  unfold compile_individual
  rw [hr]
  cases r with
  | none => exact ⟨none, rfl⟩
  | some components => exact ⟨_, rfl⟩

/-- Witness for the amended C2: the genome `clfA(tfC(data, q=1), p=1)`
compiles without raising. -/
theorem C2_amended_compile_never_raises_witness :
    ∃ r, compile_individual demoGenome demoPset (fun _ => none) [] = Except.ok r :=
  C2_amended_compile_never_raises demoPset (fun _ => none) demoHName [] demoGenome
    (by decide) (by decide) (by decide)

/-- Claim C4 (the code slip): on the two-individual population with first
weighted objectives 1 and 2 and k = 1, `eliminate_worst` returns the
individual with the HIGHEST weighted objective — the best one — although it
is the set of individuals the caller removes from the population; the claim
(and the function's own name and its role symmetric to `eliminate_NSGA`)
requires the lowest. -/
theorem C4_eliminate_worst_returns_best :
    eliminate_worst [⟨[1], 0⟩, ⟨[2], 1⟩] 1 = [⟨[2], 1⟩] ∧
    eliminate_worst [⟨[1], 0⟩, ⟨[2], 1⟩] 1 ≠ [⟨[1], 0⟩] := by
  decide

theorem pairwise_imp_mem {α : Type _} {R S : α → α → Prop} :
    ∀ l : List α, (∀ a b, a ∈ l → b ∈ l → R a b → S a b) → l.Pairwise R → l.Pairwise S := by
  intro l
  induction l with
  | nil => intro _ _; exact List.Pairwise.nil
  | cons x xs ih =>
    intro himp hp
    rcases List.pairwise_cons.mp hp with ⟨hx, hxs⟩
    refine List.pairwise_cons.mpr ⟨?_, ?_⟩
    · intro b hb
      exact himp x b (List.mem_cons_self _ _) (List.mem_cons_of_mem _ hb) (hx b hb)
    · exact ih (fun a b ha hb => himp a b (List.mem_cons_of_mem _ ha)
        (List.mem_cons_of_mem _ hb)) hxs

theorem wvalues_headI (i : OIndiv) (w0 : Int) (hw : i.weights.headI = w0)
    (hv : i.values ≠ []) (hwne : i.weights ≠ []) :
    i.wvalues.headI = w0 * i.values.headI := by
  unfold OIndiv.wvalues
  cases hvs : i.values with
  | nil => exact absurd hvs hv
  | cons v vs =>
    cases hws : i.weights with
    | nil => exact absurd hws hwne
    | cons w ws =>
      rw [hws] at hw
      simp only [List.zipWith_cons_cons, List.headI]
      rw [← hw]
      simp [List.headI]

/-- Claim C5: `best_n(n)` returns min(n, #history) individuals from the full
evaluation history, ordered by descending primary-objective weighted value —
the code sorts by the raw primary value, which coincides with the weighted
order because the primary weight is positive — with ties broken by ascending
canonical genome string; with fewer than `n` evaluated it returns all of
them (as a permutation of the history). -/
theorem C5_best_n_ordering (individuals : List OIndiv) (n : Nat) (w0 : Int)
    (hw0 : 0 < w0) (hw : ∀ i ∈ individuals, i.weights.headI = w0)
    (hne : ∀ i ∈ individuals, i.values ≠ [] ∧ i.weights ≠ []) :
    (best_n individuals n).length = min n individuals.length ∧
    (∀ x ∈ best_n individuals n, x ∈ individuals) ∧
    List.Pairwise (fun a b => b.wvalues.headI < a.wvalues.headI ∨
      (a.wvalues.headI = b.wvalues.headI ∧ a.genomeStr ≤ b.genomeStr))
      (best_n individuals n) ∧
    (individuals.length ≤ n → List.Perm (best_n individuals n) individuals) := by
  have hperm := List.perm_insertionSort bestNKeyLE individuals
  have hlen : (List.insertionSort bestNKeyLE individuals).length = individuals.length :=
    hperm.length_eq
  refine ⟨?_, ?_, ?_, ?_⟩
  · unfold best_n
    rw [List.length_take, hlen]
  · intro x hx
    exact hperm.mem_iff.mp (List.mem_of_mem_take hx)
  · have hsorted : List.Pairwise bestNKeyLE (List.insertionSort bestNKeyLE individuals) :=
      List.sorted_insertionSort bestNKeyLE individuals
    have htake : List.Pairwise bestNKeyLE (best_n individuals n) :=
      List.Pairwise.sublist (List.take_sublist n _) hsorted
    refine pairwise_imp_mem _ ?_ htake
    intro a b ha hb hR
    have ha2 : a ∈ individuals := hperm.mem_iff.mp (List.mem_of_mem_take ha)
    have hb2 : b ∈ individuals := hperm.mem_iff.mp (List.mem_of_mem_take hb)
    have hwa := wvalues_headI a w0 (hw a ha2) (hne a ha2).1 (hne a ha2).2
    have hwb := wvalues_headI b w0 (hw b hb2) (hne b hb2).1 (hne b hb2).2
    unfold bestNKeyLE at hR
    rcases hR with h | ⟨h, hs⟩
    · left
      rw [hwa, hwb]
      have hvb : b.values.headI < a.values.headI := by omega
      exact mul_lt_mul_of_pos_left hvb hw0
    · right
      refine ⟨?_, hs⟩
      rw [hwa, hwb]
      have hva : a.values.headI = b.values.headI := by omega
      rw [hva]
  · intro hlen2
    unfold best_n
    rw [List.take_of_length_le (by rw [hlen]; exact hlen2)]
    exact hperm

/-- Witness for C5 at the concrete three-individual history with n = 2. -/
theorem C5_best_n_ordering_witness :
    (best_n demoHistory 2).length = min 2 demoHistory.length ∧
    (∀ x ∈ best_n demoHistory 2, x ∈ demoHistory) ∧
    List.Pairwise (fun a b => b.wvalues.headI < a.wvalues.headI ∨
      (a.wvalues.headI = b.wvalues.headI ∧ a.genomeStr ≤ b.genomeStr))
      (best_n demoHistory 2) ∧
    (demoHistory.length ≤ 2 → List.Perm (best_n demoHistory 2) demoHistory) :=
  C5_best_n_ordering demoHistory 2 1 (by decide) (by decide) (by decide)

/-- Counterexample to C7 as stated: with a second objective named
"duration" the code matches neither of its branches (it compares against
the string 'time') and leaves the fitness values unset instead of assigning
(score, evaluation_time). -/
theorem C7_counterexample_duration_not_matched :
    assignFitness ["accuracy", "duration"] 5 7 3 = none ∧
    assignFitness ["accuracy", "duration"] 5 7 3 ≠ some [5, 7] := by
  decide

/-- Claim C7 amended: a single objective yields (score,); a second objective
named 'time' (not "duration") yields (score, evaluation_time); a second
objective named 'size' yields (score, tree length), the tree length being
the number of primitives of the genome (`individual_length`). -/
theorem C7_amended_fitness_by_descriptor (objectives : List String)
    (score evaluation_time : Int) (g : List GNode) :
    (objectives.length = 1 →
      assignFitness objectives score evaluation_time (individual_length g : Int) =
        some [score]) ∧
    (objectives.length ≠ 1 → objectives.get? 1 = some ("time") →
      assignFitness objectives score evaluation_time (individual_length g : Int) =
        some [score, evaluation_time]) ∧
    (objectives.length ≠ 1 → objectives.get? 1 = some ("size") →
      assignFitness objectives score evaluation_time (individual_length g : Int) =
        some [score, (individual_length g : Int)]) := by
  refine ⟨?_, ?_, ?_⟩
  · intro h1
    unfold assignFitness
    rw [if_pos h1]
  · intro h1 h2
    unfold assignFitness
    rw [if_neg h1, h2]
    simp
  · intro h1 h2
    unfold assignFitness
    rw [if_neg h1, h2]
    simp

/-- Witness for the amended C7 at concrete descriptors and the demo genome
(two primitives). -/
theorem C7_amended_fitness_by_descriptor_witness :
    assignFitness ["accuracy"] 5 7 (individual_length demoGenome : Int) = some [5] ∧
    assignFitness ["accuracy", "time"] 5 7 (individual_length demoGenome : Int) =
      some [5, 7] ∧
    assignFitness ["accuracy", "size"] 5 7 (individual_length demoGenome : Int) =
      some [5, (individual_length demoGenome : Int)] :=
  ⟨(C7_amended_fitness_by_descriptor ["accuracy"] 5 7 demoGenome).1 (by decide),
    (C7_amended_fitness_by_descriptor ["accuracy", "time"] 5 7 demoGenome).2.1
      (by decide) (by decide),
    (C7_amended_fitness_by_descriptor ["accuracy", "size"] 5 7 demoGenome).2.2
      (by decide) (by decide)⟩

/-- Claim C8: a non-timeout callback exception is swallowed and execution
continues; if the budget is exhausted after the callback (whether it
returned or its exception was swallowed) a hard timeout is raised; a timeout
exception from inside the callback always propagates. -/
theorem C8_safe_outside_call_policy (timeoutNow : Bool) :
    safe_outside_call CallbackOutcome.otherExc false = SafeCallResult.returned ∧
    safe_outside_call CallbackOutcome.otherExc true = SafeCallResult.raisedTimeout ∧
    safe_outside_call CallbackOutcome.ok true = SafeCallResult.raisedTimeout ∧
    safe_outside_call CallbackOutcome.ok false = SafeCallResult.returned ∧
    safe_outside_call CallbackOutcome.timeoutExc timeoutNow = SafeCallResult.raisedTimeout := by
  cases timeoutNow <;> exact ⟨rfl, rfl, rfl, rfl, rfl⟩

/-- Claim C9: a validation error is raised exactly when `max_time_seconds`
lies outside (0, 3e6], or `max_n_evaluations ≤ 0`, or `n_jobs ≤ 0`, and the
error names the violated parameter (the message for `max_n_evaluations`
spells it 'n_evaluations'). -/
theorem C9_async_ea_validation (t : Rat) (e j : Int) :
    (async_ea_validate t e j = none ↔ (0 < t ∧ t ≤ 3000000 ∧ 0 < e ∧ 0 < j)) ∧
    ((t ≤ 0 ∨ 3000000 < t) → async_ea_validate t e j = some ("max_time_seconds")) ∧
    (0 < t → t ≤ 3000000 → e ≤ 0 → async_ea_validate t e j = some ("n_evaluations")) ∧
    (0 < t → t ≤ 3000000 → 0 < e → j ≤ 0 → async_ea_validate t e j = some ("n_jobs")) := by
  refine ⟨⟨?_, ?_⟩, ?_, ?_, ?_⟩
  · intro h
    unfold async_ea_validate at h
    by_cases h1 : t ≤ 0 ∨ 3000000 < t
    · rw [if_pos h1] at h
      exact absurd h (by simp)
    · rw [if_neg h1] at h
      by_cases h2 : e ≤ 0
      · rw [if_pos h2] at h
        exact absurd h (by simp)
      · rw [if_neg h2] at h
        by_cases h3 : j ≤ 0
        · rw [if_pos h3] at h
          exact absurd h (by simp)
        · push_neg at h1
          exact ⟨h1.1, h1.2, by omega, by omega⟩
  · rintro ⟨h1, h2, h3, h4⟩
    unfold async_ea_validate
    rw [if_neg (by push_neg; exact ⟨h1, h2⟩), if_neg (by omega), if_neg (by omega)]
  · intro h1
    unfold async_ea_validate
    rw [if_pos h1]
  · intro h1 h2 h3
    unfold async_ea_validate
    rw [if_neg (by push_neg; exact ⟨h1, h2⟩), if_pos h3]
  · intro h1 h2 h3 h4
    unfold async_ea_validate
    rw [if_neg (by push_neg; exact ⟨h1, h2⟩), if_neg (by omega), if_pos h4]

/-- Witness for C9 at concrete parameter values. -/
theorem C9_async_ea_validation_witness :
    async_ea_validate 10 5 2 = none ∧
    async_ea_validate 4000000 5 2 = some ("max_time_seconds") ∧
    async_ea_validate 10 0 2 = some ("n_evaluations") ∧
    async_ea_validate 10 5 0 = some ("n_jobs") :=
  ⟨(C9_async_ea_validation 10 5 2).1.2 ⟨by norm_num, by norm_num, by norm_num, by norm_num⟩,
    (C9_async_ea_validation 4000000 5 2).2.1 (Or.inr (by norm_num)),
    (C9_async_ea_validation 10 0 2).2.2.1 (by norm_num) (by norm_num) (by norm_num),
    (C9_async_ea_validation 10 5 0).2.2.2 (by norm_num) (by norm_num) (by norm_num)
      (by norm_num)⟩

/-- Claim C10: `Observer.update` unconditionally writes an audit record
reading both the first and the second weighted objective value; with fewer
than two weighted values (a single-objective run) it therefore fails with an
index error — after appending the individual to the in-memory history but
without writing the audit record; with at least two weighted values it
succeeds and appends exactly the record line. -/
theorem C10_update_single_objective_fails
    (frontUpdate : List OIndiv → OIndiv → List OIndiv × Bool)
    (st : ObserverState) (ind : OIndiv) :
    (ind.wvalues.length < 2 →
      Observer.update frontUpdate st ind =
        Except.error { st with individuals := st.individuals ++ [ind] }) ∧
    (2 ≤ ind.wvalues.length →
      ∃ st2 line, Observer.update frontUpdate st ind = Except.ok st2 ∧
        record_individual ind = some line ∧
        st2.evaluations = st.evaluations ++ [line] ∧
        st2.individuals = st.individuals ++ [ind]) := by
  constructor
  · intro hlen
    have hrec : record_individual ind = none := by
      unfold record_individual
      cases hg0 : ind.wvalues.get? 0 with
      | none => rfl
      | some w0 =>
        cases hg1 : ind.wvalues.get? 1 with
        | none => rfl
        | some w1 =>
          have : 1 < ind.wvalues.length := (List.get?_eq_some.mp hg1).1
          omega
    unfold Observer.update
    rw [hrec]
  · intro hlen
    have hg0 : ∃ w0, ind.wvalues.get? 0 = some w0 := by
      rw [← Option.isSome_iff_exists]
      rw [List.get?_eq_get (by omega)]
      rfl
    have hg1 : ∃ w1, ind.wvalues.get? 1 = some w1 := by
      rw [← Option.isSome_iff_exists]
      rw [List.get?_eq_get (by omega)]
      rfl
    obtain ⟨w0, hw0⟩ := hg0
    obtain ⟨w1, hw1⟩ := hg1
    have hrec : record_individual ind = some (String.intercalate (";")
        [toString ind.fitnessTime, toString w0, toString w1, ind.genomeStr]) := by
      unfold record_individual
      rw [hw0, hw1]
    unfold Observer.update
    rw [hrec]
    dsimp only
    refine ⟨_, _, rfl, rfl, ?_, ?_⟩
    · split <;> rfl
    · split <;> rfl

/-- Witness for C10: a single-objective individual (one weighted value)
makes `update` fail, leaving the audit log untouched. -/
theorem C10_update_single_objective_fails_witness :
    Observer.update (fun f _ => (f, false)) ⟨[], [], [], 0, []⟩ ⟨[5], [1], 10, "a"⟩ =
      Except.error ⟨[], [], [⟨[5], [1], 10, "a"⟩], 0, []⟩ :=
  (C10_update_single_objective_fails (fun f _ => (f, false)) ⟨[], [], [], 0, []⟩
    ⟨[5], [1], 10, "a"⟩).1 (by decide)
